import Mathlib

/-!
Verification development for the codependence / distance-matrix and
RMT-denoising engine of Riskfolio-Lib (riskfolio/src/AuxFunctions.py).

The Python source computes with numpy floating point.  The shallow embedding
below uses exact rationals; the floating-point square root and cube root are
modelled by monotone fixed-point approximations (scale 10^12), the numpy
round (round-half-to-even) exactly, and the IEEE special values nan/inf by an
explicit type PFloat with numpy's propagation rules for the operations the
source actually performs (division by zero yields inf or nan, never an
exception; clip and min/max propagate nan).  External collaborators of the
source (scipy entropy, sklearn mutual_info_score, astropy bin widths,
pandas correlation, the Gerber and distance-correlation kernels, np.log,
scipy fcluster) are parameters of the embedding, constrained where needed by
their documented contracts.
-/

/-- Fuel-based binary logarithm (used only to size the fuel of the integer
root search). -/
def log2F : ℕ → ℕ → ℕ
  | 0, _ => 0
  | f + 1, n => if n ≤ 1 then 0 else log2F f (n / 2) + 1

/-- Binary search for the integer e-th root: invariant lo^e ≤ n < hi^e. -/
def rootAux (e n : ℕ) : ℕ → ℕ → ℕ → ℕ
  | 0, lo, _ => lo
  | fuel + 1, lo, hi =>
    if hi ≤ lo + 1 then lo
    else
      let mid := (lo + hi) / 2
      if mid ^ e ≤ n then rootAux e n fuel mid hi else rootAux e n fuel lo mid

/-- Integer e-th root: the largest k with k^e ≤ n (for e ≥ 1). -/
def natRoot (e n : ℕ) : ℕ := rootAux e n (log2F n n + 2) 0 (n + 1)

/-- Round-half-to-even to an integer, the semantics of np.round with
decimals = 0. -/
def npRound0 (q : ℚ) : ℤ :=
  let f := ⌊q⌋
  let r := q - (f : ℚ)
  if r < 1/2 then f
  else if 1/2 < r then f + 1
  else if 2 ∣ f then f else f + 1

/-- Round-half-to-even at 8 decimals, the semantics of np.round(x, 8) on a
finite value. -/
def round8Q (q : ℚ) : ℚ := (npRound0 (q * 10 ^ 8) : ℚ) / 10 ^ 8

/-- Clamp a rational into an interval, the semantics of np.clip on finite
values (np.minimum(hi, np.maximum(lo, x))). -/
def clipQ (q lo hi : ℚ) : ℚ := min hi (max lo q)

/-- Fixed-point model of the floating-point square root: the integer square
root of the input scaled by 10^24, divided back by 10^12.  Monotone and
non-negative; exact on inputs whose scaled value is a perfect square. -/
def sqrtA (q : ℚ) : ℚ := (natRoot 2 (Int.toNat ⌊q * 10 ^ 24⌋) : ℚ) / 10 ^ 12

/-- Fixed-point model of the floating-point cube root (x ** (1/3) in the
source), scale 10^12. -/
def cbrtA (q : ℚ) : ℚ := (natRoot 3 (Int.toNat ⌊q * 10 ^ 36⌋) : ℚ) / 10 ^ 12

/-- Pre-rounding value of the univariate branch of numBins
(source lines 402-407): z = (8 + 324 n + 12 (36 n + 729 n^2)^0.5)^(1/3),
b = z/6 + 2/(3 z) + 1/3. -/
def numBinsUniReal (n : ℕ) : ℚ :=
  let z := cbrtA (8 + 324 * (n : ℚ) + 12 * sqrtA (36 * (n : ℚ) + 729 * (n : ℚ) ^ 2))
  z / 6 + 2 / (3 * z) + 1 / 3

/-- numBins(nSamples, None): np.round of the univariate closed form followed
by the np.int32 cast, which is the identity on these small values and is
modelled as ℤ. -/
def numBinsUni (n : ℕ) : ℤ := npRound0 (numBinsUniReal n)

/-- np.searchsorted with side left on an ascending array: the index of the
first entry not below v, i.e. the number of entries strictly below v. -/
def searchsortedLeft (a : List ℚ) (v : ℚ) : ℕ :=
  (a.filter (fun x => x < v)).length

/-- nFacts computation of denoiseCov (source line 1265):
eVal.shape[0] - np.diag(eVal)[::-1].searchsorted(eMax), where the diagonal of
eVal is the descending eigenvalue list. -/
def nFactsOf (eValDesc : List ℚ) (eMax : ℚ) : ℕ :=
  eValDesc.length - searchsortedLeft eValDesc.reverse eMax

/-- Modelled from the spec words of C2 for the refinement comparison: the
count of eigenvalues strictly exceeding eMax. -/
def nFactsSpecStrict (eValDesc : List ℚ) (eMax : ℚ) : ℕ :=
  (eValDesc.filter (fun x => eMax < x)).length

/-- Eigenvalue surgery of denoisedCorr (source lines 1167-1174): under kind
fixed the noise eigenvalues (positions nFacts..n-1 of the descending list)
are replaced by their average, under kind spectral by zero; any other kind
leaves the eigenvalues unchanged (the source then reconstructs a matrix from
the modified diagonal and rescales it to unit diagonal). -/
def denoisedCorrEigenvalues (eVal : List ℚ) (nFacts : ℕ) (kind : String) : List ℚ :=
  if kind = "fixed" then
    eVal.take nFacts ++ List.replicate (eVal.length - nFacts)
      ((eVal.drop nFacts).sum / ((eVal.length - nFacts : ℕ) : ℚ))
  else if kind = "spectral" then
    eVal.take nFacts ++ List.replicate (eVal.length - nFacts) 0
  else eVal

/-- Python error classes observable from the source's computations. -/
inductive PyErr where
  | valueError
  | zeroDivisionError
  | unboundLocal
  | nonFiniteCast
deriving DecidableEq

/-- IEEE-754 style value as numpy produces it for the operations used by the
source: an exact rational, a signed infinity, or nan. -/
inductive PFloat where
  | nan : PFloat
  | inf : PFloat
  | ninf : PFloat
  | val : ℚ → PFloat
deriving DecidableEq

namespace PFloat

def neg : PFloat → PFloat
  | nan => nan
  | inf => ninf
  | ninf => inf
  | val q => val (-q)

def add : PFloat → PFloat → PFloat
  | nan, _ => nan
  | _, nan => nan
  | inf, ninf => nan
  | ninf, inf => nan
  | inf, _ => inf
  | _, inf => inf
  | ninf, _ => ninf
  | _, ninf => ninf
  | val a, val b => val (a + b)

def sub (a b : PFloat) : PFloat := add a (neg b)

def mul : PFloat → PFloat → PFloat
  | nan, _ => nan
  | _, nan => nan
  | inf, inf => inf
  | inf, ninf => ninf
  | ninf, inf => ninf
  | ninf, ninf => inf
  | inf, val b => if 0 < b then inf else if b < 0 then ninf else nan
  | val a, inf => if 0 < a then inf else if a < 0 then ninf else nan
  | ninf, val b => if 0 < b then ninf else if b < 0 then inf else nan
  | val a, ninf => if 0 < a then ninf else if a < 0 then inf else nan
  | val a, val b => val (a * b)

/-- numpy float division: division by zero produces a signed infinity (with
a runtime warning, not an exception) and 0/0 produces nan. -/
def div : PFloat → PFloat → PFloat
  | nan, _ => nan
  | _, nan => nan
  | inf, inf => nan
  | inf, ninf => nan
  | ninf, inf => nan
  | ninf, ninf => nan
  | inf, val b => if b < 0 then ninf else inf
  | ninf, val b => if b < 0 then inf else ninf
  | val _, inf => val 0
  | val _, ninf => val 0
  | val a, val b =>
      if b = 0 then (if a = 0 then nan else if 0 < a then inf else ninf)
      else val (a / b)

/-- np.maximum: propagates nan. -/
def pmax : PFloat → PFloat → PFloat
  | nan, _ => nan
  | _, nan => nan
  | inf, _ => inf
  | _, inf => inf
  | ninf, b => b
  | a, ninf => a
  | val a, val b => val (max a b)

/-- np.minimum: propagates nan. -/
def pmin : PFloat → PFloat → PFloat
  | nan, _ => nan
  | _, nan => nan
  | ninf, _ => ninf
  | _, ninf => ninf
  | inf, b => b
  | a, inf => a
  | val a, val b => val (min a b)

/-- np.clip(x, lo, hi) = np.minimum(np.maximum(x, lo), hi). -/
def clip (x lo hi : PFloat) : PFloat := pmin (pmax x lo) hi

/-- np.sqrt: nan on negative input, inf on inf. -/
def sqrtP : PFloat → PFloat
  | nan => nan
  | inf => inf
  | ninf => nan
  | val q => if q < 0 then nan else val (sqrtA q)

/-- np.round(x, 8) on a PFloat; non-finite values pass through. -/
def round8 : PFloat → PFloat
  | val q => val (round8Q q)
  | x => x

/-- np.round(x) on a PFloat; non-finite values pass through. -/
def roundP0 : PFloat → PFloat
  | val q => val ((npRound0 q : ℤ) : ℚ)
  | x => x

/-- IEEE comparison as a boolean: nan compares false. -/
def leB : PFloat → PFloat → Bool
  | nan, _ => false
  | _, nan => false
  | ninf, _ => true
  | _, inf => true
  | inf, _ => false
  | _, ninf => false
  | val a, val b => decide (a ≤ b)

/-- Truncation toward zero of a rational (the C cast float -> int). -/
def ratTrunc (q : ℚ) : ℤ := if 0 ≤ q then ⌊q⌋ else -⌊-q⌋

/-- Conversion np.int32(b) of a float bin count: a non-finite value cannot be
converted (numpy rejects it at the cast or, in versions that wrap the cast,
at the histogram call that receives the garbage count; never as a
ZeroDivisionError). -/
def toInt32 : PFloat → Except PyErr ℤ
  | val q => Except.ok (ratTrunc q)
  | _ => Except.error PyErr.nonFiniteCast

end PFloat

/-- Square matrix of PFloat entries, row-major. -/
abbrev PMat := List (List PFloat)

/-- Entry access with the out-of-bounds default nan. -/
def mget (M : PMat) (i j : ℕ) : PFloat := (M.getD i []).getD j PFloat.nan

/-- Entrywise map over a matrix. -/
def mmap (f : PFloat → PFloat) (M : PMat) : PMat := M.map (List.map f)

/-- Entry access for a rational matrix with default 0. -/
def qget (M : List (List ℚ)) (i j : ℕ) : ℚ := (M.getD i []).getD j 0

/-- Injection of a rational matrix into PFloat entries. -/
def toPM (M : List (List ℚ)) : PMat := M.map (List.map PFloat.val)

/-- Column i of a row-major data matrix (X[:, i]). -/
def col (X : List (List ℚ)) (i : ℕ) : List ℚ := X.map (fun r => r.getD i 0)

/-- Number of asset columns (X.shape[1]). -/
def numAssets (X : List (List ℚ)) : ℕ := (X.headD []).length

def colMin (c : List ℚ) : ℚ := c.foldl min (c.headD 0)

def colMax (c : List ℚ) : ℚ := c.foldl max (c.headD 0)

/-- Histogram range: numpy expands a degenerate range (all data equal) to
(v - 0.5, v + 0.5). -/
def histEdges (c : List ℚ) : ℚ × ℚ :=
  let mn := colMin c
  let mx := colMax c
  if mn = mx then (mn - 1/2, mx + 1/2) else (mn, mx)

/-- Uniform-bin index of a sample (the rightmost bin is right-inclusive). -/
def binIdx (lo hi : ℚ) (bins : ℕ) (x : ℚ) : ℕ :=
  min (Int.toNat ⌊(x - lo) * bins / (hi - lo)⌋) (bins - 1)

/-- np.histogram(c, bins) counts over the data range. -/
def histCounts (c : List ℚ) (bins : ℕ) : List ℚ :=
  let e := histEdges c
  (List.range bins).map
    (fun b => ((c.filter (fun x => binIdx e.1 e.2 bins x = b)).length : ℚ))

/-- np.histogram2d(cx, cy, bins) contingency counts. -/
def hist2d (cx cy : List ℚ) (bins : ℕ) : List (List ℚ) :=
  let ex := histEdges cx
  let ey := histEdges cy
  (List.range bins).map (fun b1 => (List.range bins).map (fun b2 =>
    (((cx.zip cy).filter
      (fun p => binIdx ex.1 ex.2 bins p.1 = b1 ∧ binIdx ey.1 ey.2 bins p.2 = b2)).length : ℚ)))

/-- External statistical kernels called by the source: scipy.stats.entropy on
a count vector and sklearn mutual_info_score on a contingency table.  Both
return floats, i.e. rationals in this embedding. -/
structure StatKernels where
  entropy : List ℚ → ℚ
  mutualInfo : List (List ℚ) → ℚ

/-- Documented contract of the statistical kernels: entropy is non-negative
on count vectors and zero on a one-hot vector (a single nonzero count means
a deterministic distribution); mutual information is non-negative (sklearn
clips it at 0) and zero when the contingency table has at most one nonzero
row (one margin deterministic). -/
structure LawfulStatKernels (SK : StatKernels) : Prop where
  entropy_nonneg : ∀ c : List ℚ, (∀ x ∈ c, 0 ≤ x) → 0 ≤ SK.entropy c
  entropy_onehot : ∀ c : List ℚ,
    (c.filter (fun x => x ≠ 0)).length ≤ 1 → SK.entropy c = 0
  mi_nonneg : ∀ t : List (List ℚ), 0 ≤ SK.mutualInfo t
  mi_onehot_row : ∀ t : List (List ℚ),
    (t.filter (fun r => r.any (fun x => x ≠ 0))).length ≤ 1 → SK.mutualInfo t = 0

/-- Bin-count strategies of mutual_info_matrix / var_info_matrix: a fixed
integer from the caller, the HGR correlation-driven rule, or one of the
classical width rules (Knuth / Freedman-Diaconis / Scott), whose width
computation is an external astropy kernel. -/
inductive BinsInfo where
  | fixedI : ℤ → BinsInfo
  | hgr : BinsInfo
  | widthRule : (List ℚ → PFloat) → BinsInfo

/-- np.corrcoef(x, y)[0, 1]: sample correlation with ddof 1, clipped into
[-1, 1]; degenerate denominators produce nan/inf through float division. -/
def corrcoefP (x y : List ℚ) : PFloat :=
  let m := (x.length : ℚ)
  let mx := x.sum / m
  let my := y.sum / m
  let cxx := (x.map (fun a => (a - mx) ^ 2)).sum / (m - 1)
  let cyy := (y.map (fun a => (a - my) ^ 2)).sum / (m - 1)
  let cxy := ((x.zip y).map (fun p => (p.1 - mx) * (p.2 - my))).sum / (m - 1)
  PFloat.clip (PFloat.div (PFloat.val cxy) (PFloat.val (sqrtA cxx * sqrtA cyy)))
    (PFloat.val (-1)) (PFloat.val 1)

/-- numBins(nSamples, corr) (source lines 402-414): the univariate branch
when corr is absent, otherwise
round(2^-0.5 (1 + (1 + 24 n/(1 - corr^2))^0.5)^0.5) followed by the np.int32
cast, which fails on a non-finite value. -/
def numBins (m : ℕ) (corr : Option PFloat) : Except PyErr ℤ :=
  match corr with
  | none => Except.ok (numBinsUni m)
  | some c =>
    PFloat.toInt32 (PFloat.roundP0 (PFloat.mul (PFloat.val (sqrtA (1/2)))
      (PFloat.sqrtP (PFloat.add (PFloat.val 1) (PFloat.sqrtP (PFloat.add (PFloat.val 1)
        (PFloat.div (PFloat.val (24 * (m : ℚ)))
          (PFloat.sub (PFloat.val 1) (PFloat.mul c c)))))))))

/-- Per-pair bin count of mutual_info_matrix / var_info_matrix
(source lines 462-490): width rules take round((max-min)/width) per column
and round of the maximum of the two raw ratios off the diagonal; HGR
special-cases a pairwise correlation exactly equal to +1 and otherwise uses
the bivariate numBins formula; an integer bins_info is passed through. -/
def binsFor (bi : BinsInfo) (m : ℕ) (ci cj : List ℚ) (diag : Bool) :
    Except PyErr ℤ :=
  match bi with
  | BinsInfo.fixedI k => Except.ok k
  | BinsInfo.widthRule w =>
    let k1 := PFloat.div (PFloat.val (colMax ci - colMin ci)) (w ci)
    if diag then PFloat.toInt32 (PFloat.roundP0 k1)
    else
      let k2 := PFloat.div (PFloat.val (colMax cj - colMin cj)) (w cj)
      PFloat.toInt32 (PFloat.roundP0 (PFloat.pmax k1 k2))
  | BinsInfo.hgr =>
    let corr := corrcoefP ci cj
    if corr = PFloat.val 1 then numBins m none else numBins m (some corr)

/-- Mutual-information cell (source lines 492-502): histograms, marginal
entropies, mutual information, optional normalization by the smaller
marginal entropy (float division, so 0/0 is nan).  np.histogram rejects a
non-positive integer bin count with a ValueError. -/
def miEntry (SK : StatKernels) (bins : ℤ) (ci cj : List ℚ) (normalize : Bool) :
    Except PyErr PFloat :=
  if bins ≤ 0 then Except.error PyErr.valueError
  else
    let b := bins.toNat
    let hX := SK.entropy (histCounts ci b)
    let hY := SK.entropy (histCounts cj b)
    let iXY := SK.mutualInfo (hist2d ci cj b)
    Except.ok (if normalize then PFloat.div (PFloat.val iXY) (PFloat.val (min hX hY))
               else PFloat.val iXY)

/-- Variation-of-information cell (source lines 588-597):
v = hX + hY - 2 iXY, normalized by the joint entropy hX + hY - iXY. -/
def viEntry (SK : StatKernels) (bins : ℤ) (ci cj : List ℚ) (normalize : Bool) :
    Except PyErr PFloat :=
  if bins ≤ 0 then Except.error PyErr.valueError
  else
    let b := bins.toNat
    let hX := SK.entropy (histCounts ci b)
    let hY := SK.entropy (histCounts cj b)
    let iXY := SK.mutualInfo (hist2d ci cj b)
    let vXY := hX + hY - 2 * iXY
    Except.ok (if normalize then PFloat.div (PFloat.val vXY)
                 (PFloat.val (hX + hY - iXY))
               else PFloat.val vXY)

/-- Sequencing of fallible computations: the first error wins. -/
def exSeq {α : Type} : List (Except PyErr α) → Except PyErr (List α)
  | [] => Except.ok []
  | x :: t => do
      let a ← x
      let r ← exSeq t
      Except.ok (a :: r)

/-- Matrix assembled from the upper triangle (including the diagonal) and
mirrored, as the source's loop over np.triu_indices does; the first error
raised in the loop propagates. -/
def buildSym (n : ℕ) (entry : ℕ → ℕ → Except PyErr PFloat) : Except PyErr PMat :=
  exSeq ((List.range n).map
    (fun i => exSeq ((List.range n).map (fun j => entry (min i j) (max i j)))))

/-- Final postprocessing np.clip(np.round(mat, 8), 0, np.inf) applied
entrywise. -/
def clipRound0 (p : PFloat) : PFloat :=
  PFloat.clip (PFloat.round8 p) (PFloat.val 0) PFloat.inf

/-- mutual_info_matrix (source lines 417-510). -/
def mutual_info_matrix (SK : StatKernels) (bi : BinsInfo) (X : List (List ℚ))
    (normalize : Bool) : Except PyErr PMat := do
  let M ← buildSym (numAssets X) (fun i j => do
    let bins ← binsFor bi X.length (col X i) (col X j) (i == j)
    miEntry SK bins (col X i) (col X j) normalize)
  pure (mmap clipRound0 M)

/-- var_info_matrix (source lines 513-605). -/
def var_info_matrix (SK : StatKernels) (bi : BinsInfo) (X : List (List ℚ))
    (normalize : Bool) : Except PyErr PMat := do
  let M ← buildSym (numAssets X) (fun i j => do
    let bins ← binsFor bi X.length (col X i) (col X j) (i == j)
    viEntry SK bins (col X i) (col X j) normalize)
  pure (mmap clipRound0 M)

/-- ltdi_matrix (source lines 608-676): k = ceil(m alpha); for k = 0 the
matrix of ones; otherwise the empirical lower-tail index per pair, from the
k-th smallest values of the two columns; the result is
np.clip(np.round(mat, 8), 1e-8, 1). -/
def ltdi_matrix (X : List (List ℚ)) (alpha : ℚ) : List (List ℚ) :=
  let m := X.length
  let n := numAssets X
  let k := Int.toNat ⌈(m : ℚ) * alpha⌉
  let base : ℕ → ℕ → ℚ :=
    if k = 0 then fun _ _ => 1
    else fun i j =>
      let ci := col X i
      let cj := col X j
      let u := (ci.insertionSort (· ≤ ·)).getD (k - 1) 0
      let v := (cj.insertionSort (· ≤ ·)).getD (k - 1) 0
      (((ci.zip cj).filter (fun p => p.1 ≤ u ∧ p.2 ≤ v)).length : ℚ) / (k : ℚ)
  (List.range n).map (fun i => (List.range n).map (fun j =>
    clipQ (round8Q (base (min i j) (max i j))) (1 / 10 ^ 8) 1))

/-- cov2corr (source lines 91-123): std = sqrt(diag), correlation =
np.clip(cov / outer(std, std), -1, 1); a zero variance makes the division
degenerate (nan/inf) exactly as in numpy. -/
def cov2corr (cov : List (List ℚ)) : PMat :=
  let n := cov.length
  (List.range n).map (fun i => (List.range n).map (fun j =>
    PFloat.clip (PFloat.div (PFloat.val (qget cov i j))
      (PFloat.val (sqrtA (qget cov i i) * sqrtA (qget cov j j))))
      (PFloat.val (-1)) (PFloat.val 1)))

/-- External collaborators of codep_dist, specialized to the call's returns
matrix: the pandas correlation matrices (pearson / spearman / kendall), the
two Gerber covariance estimators, the distance-correlation kernel matrix,
and np.log on positive floats. -/
structure CodepKernels where
  corrOf : String → List (List ℚ)
  gerber1M : List (List ℚ)
  gerber2M : List (List ℚ)
  dcorrM : List (List ℚ)
  lnQ : ℚ → ℚ

/-- np.log on a PFloat: log of a positive value through the external kernel,
-inf at 0, nan on negatives. -/
def plog (lnQ : ℚ → ℚ) : PFloat → PFloat
  | PFloat.nan => PFloat.nan
  | PFloat.inf => PFloat.inf
  | PFloat.ninf => PFloat.nan
  | PFloat.val q =>
      if 0 < q then PFloat.val (lnQ q)
      else if q = 0 then PFloat.ninf else PFloat.nan

/-- Distance formula sqrt(clip((1 - rho)/2, 0, 1)). -/
def distHalf (c : PFloat) : PFloat :=
  PFloat.sqrtP (PFloat.clip (PFloat.div (PFloat.sub (PFloat.val 1) c) (PFloat.val 2))
    (PFloat.val 0) (PFloat.val 1))

/-- Distance formula sqrt(clip(1 - rho, 0, 1)). -/
def distOne (c : PFloat) : PFloat :=
  PFloat.sqrtP (PFloat.clip (PFloat.sub (PFloat.val 1) c)
    (PFloat.val 0) (PFloat.val 1))

/-- np.abs entrywise. -/
def pabs : PFloat → PFloat
  | PFloat.nan => PFloat.nan
  | PFloat.inf => PFloat.inf
  | PFloat.ninf => PFloat.inf
  | PFloat.val q => PFloat.val |q|

/-- codep_dist (source lines 842-933): the string-dispatched construction of
the codependence and distance matrices.  No branch matches an unknown kind,
so the local variables codep and dist are never assigned and the final
return raises Python's UnboundLocalError. -/
def codep_dist (CK : CodepKernels) (SK : StatKernels) (X : List (List ℚ))
    (custom_cov : List (List ℚ)) (kind : String) (bi : BinsInfo)
    (alpha_tail : ℚ) : Except PyErr (PMat × PMat) :=
  if kind = "pearson" ∨ kind = "spearman" ∨ kind = "kendall" then
    let codep := toPM (CK.corrOf kind)
    Except.ok (codep, mmap distHalf codep)
  else if kind = "gerber1" then
    let codep := cov2corr CK.gerber1M
    Except.ok (codep, mmap distHalf codep)
  else if kind = "gerber2" then
    let codep := cov2corr CK.gerber2M
    Except.ok (codep, mmap distHalf codep)
  else if kind = "abs_pearson" ∨ kind = "abs_spearman" ∨ kind = "abs_kendall" then
    let codep := mmap pabs (toPM (CK.corrOf (kind.drop 4)))
    Except.ok (codep, mmap distOne codep)
  else if kind = "distance" then
    let codep := toPM CK.dcorrM
    Except.ok (codep, mmap distOne codep)
  else if kind = "mutual_info" then do
    let c ← mutual_info_matrix SK bi X true
    let d ← var_info_matrix SK bi X true
    Except.ok (c, d)
  else if kind = "tail" then
    let codep := toPM (ltdi_matrix X alpha_tail)
    Except.ok (codep, mmap (fun p => PFloat.neg (plog CK.lnQ p)) codep)
  else if kind = "custom_cov" then
    let codep := cov2corr custom_cov
    Except.ok (codep, mmap distHalf codep)
  else
    Except.error PyErr.unboundLocal

/-- The twelve kinds of codep_dist's dispatch table. -/
def codepKinds : List String :=
  ["pearson", "spearman", "kendall", "gerber1", "gerber2",
   "abs_pearson", "abs_spearman", "abs_kendall",
   "distance", "mutual_info", "tail", "custom_cov"]

/-- Flat-cluster re-derivation loop of two_diff_gap_stat (source lines
755-762) and std_silhouette_score (lines 830-837): while the realized
distinct-cluster count k differs from the target j, increment j and recompute
k = #unique(fcluster(Z, j, maxclust)), modelled by the external kernel f.
The source's loop has no bound; the embedding's fuel argument makes
non-termination observable as none for every fuel. -/
def fclusterRederiveLoop (f : ℕ → ℕ) : ℕ → ℕ → ℕ → Option (ℕ × ℕ)
  | 0, _, _ => none
  | fuel + 1, k, j =>
      if k = j then some (k, j)
      else fclusterRederiveLoop f fuel (f (j + 1)) (j + 1)

/-- Entry into the loop: clustering_inds = fcluster(Z, kTarget);
j = #unique(inds); then the while loop. -/
def rederiveClusters (f : ℕ → ℕ) (fuel kTarget : ℕ) : Option (ℕ × ℕ) :=
  fclusterRederiveLoop f fuel kTarget (f kTarget)

/-- Divergence of the re-derivation loop: no fuel suffices. -/
def rederiveDiverges (f : ℕ → ℕ) (kTarget : ℕ) : Prop :=
  ∀ fuel, rederiveClusters f fuel kTarget = none

/-- A collaborator behavior consistent with fcluster's maxclust contract
(at most j clusters for target j, at most 3 distinct labels ever): a
pathological linkage whose realizable flat-cluster counts are capped at 3. -/
def fclusterCap3 (j : ℕ) : ℕ := min j 3

/-- Symmetry of a PFloat matrix on the first n indices. -/
def SymmN (M : PMat) (n : ℕ) : Prop :=
  ∀ i j, i < n → j < n → mget M i j = mget M j i

/-- Every entry in the n x n window is at least 0 in IEEE comparison. -/
def NonnegN (M : PMat) (n : ℕ) : Prop :=
  ∀ i j, i < n → j < n → PFloat.leB (PFloat.val 0) (mget M i j) = true

/-- Every entry in the n x n window is nan or at least 0. -/
def NonnegOrNanN (M : PMat) (n : ℕ) : Prop :=
  ∀ i j, i < n → j < n →
    mget M i j = PFloat.nan ∨ PFloat.leB (PFloat.val 0) (mget M i j) = true

/-- The diagonal of the n x n window is exactly 0. -/
def ZeroDiagN (M : PMat) (n : ℕ) : Prop :=
  ∀ i, i < n → mget M i i = PFloat.val 0

/-- An n x n list-of-rows shape. -/
def ShapeN {α : Type} (A : List (List α)) (n : ℕ) : Prop :=
  A.length = n ∧ ∀ row ∈ A, row.length = n

/-- Symmetry of a rational matrix on the first n indices. -/
def IsSymmQ (A : List (List ℚ)) (n : ℕ) : Prop :=
  ∀ i j, i < n → j < n → qget A i j = qget A j i

/-- Strictly positive diagonal, bounded away from the fixed-point square
root's underflow (floating-point variances are far above this bound). -/
def PosDiagQ (A : List (List ℚ)) (n : ℕ) : Prop :=
  ∀ i, i < n → 1 / 10 ^ 24 ≤ qget A i i

/-- Unit diagonal of a rational matrix. -/
def UnitDiagQ (A : List (List ℚ)) (n : ℕ) : Prop :=
  ∀ i, i < n → qget A i i = 1

/-- Trivial concrete statistical kernels for concrete runs. -/
def SK0 : StatKernels := ⟨fun _ => 0, fun _ => 0⟩

/-- Trivial concrete codependence collaborators for concrete runs. -/
def CK0 : CodepKernels := ⟨fun _ => [[1]], [[1]], [[1]], [[1]], fun _ => 0⟩

theorem log2F_bound : ∀ f n, n ≤ f → n < 2 ^ (log2F f n + 1) := by
  intro f
  induction f with
  | zero => intro n h; interval_cases n; simp [log2F]
  | succ f ih =>
    intro n h
    unfold log2F
    by_cases h1 : n ≤ 1
    · rw [if_pos h1]; omega
    · rw [if_neg h1]
      have h2 : n / 2 ≤ f := by omega
      have h3 := ih (n / 2) h2
      have h4 : 2 ^ (log2F f (n / 2) + 1 + 1) = 2 * 2 ^ (log2F f (n / 2) + 1) := by
        ring
      omega

theorem rootAux_spec (e n : ℕ) : ∀ fuel lo hi, lo ^ e ≤ n → n < hi ^ e →
    lo < hi → hi ≤ lo + 2 ^ fuel →
    (rootAux e n fuel lo hi) ^ e ≤ n ∧ n < (rootAux e n fuel lo hi + 1) ^ e := by
  intro fuel
  induction fuel with
  | zero =>
    intro lo hi h1 h2 h3 h4
    have hhi : hi = lo + 1 := by omega
    subst hhi
    exact ⟨h1, h2⟩
  | succ f ih =>
    intro lo hi h1 h2 h3 h4
    unfold rootAux
    by_cases hle : hi ≤ lo + 1
    · have hhi : hi = lo + 1 := by omega
      rw [if_pos hle]
      subst hhi
      exact ⟨h1, h2⟩
    · rw [if_neg hle]
      have hpow : 2 ^ (f + 1) = 2 ^ f + 2 ^ f := by ring
      by_cases hc : ((lo + hi) / 2) ^ e ≤ n
      · rw [if_pos hc]
        exact ih ((lo + hi) / 2) hi hc h2 (by omega) (by omega)
      · rw [if_neg hc]
        exact ih lo ((lo + hi) / 2) h1 (by omega) (by omega) (by omega)

theorem natRoot_spec (e n : ℕ) (he : e ≠ 0) :
    (natRoot e n) ^ e ≤ n ∧ n < (natRoot e n + 1) ^ e := by
  unfold natRoot
  apply rootAux_spec
  · have h0 : (0 : ℕ) ^ e = 0 := Nat.zero_pow (Nat.pos_of_ne_zero he)
    rw [h0]
    exact Nat.zero_le n
  · have h1 : n + 1 ≤ (n + 1) ^ e := Nat.le_self_pow he _
    omega
  · omega
  · have h1 := log2F_bound n n (le_refl n)
    have h2 : 2 ^ (log2F n n + 1) ≤ 2 ^ (log2F n n + 2) :=
      Nat.pow_le_pow_right (by norm_num) (by omega)
    omega

theorem natRoot_mono (e : ℕ) (he : e ≠ 0) {m n : ℕ} (h : m ≤ n) :
    natRoot e m ≤ natRoot e n := by
  by_contra hc
  push_neg at hc
  have h1 := (natRoot_spec e m he).1
  have h2 := (natRoot_spec e n he).2
  have h3 : natRoot e n + 1 ≤ natRoot e m := by omega
  have h4 : (natRoot e n + 1) ^ e ≤ (natRoot e m) ^ e := Nat.pow_le_pow_left h3 e
  omega

theorem natRoot_pow (e : ℕ) (he : e ≠ 0) (k : ℕ) : natRoot e (k ^ e) = k := by
  have h1 := (natRoot_spec e (k ^ e) he).1
  have h2 := (natRoot_spec e (k ^ e) he).2
  by_contra hc
  rcases Nat.lt_or_ge (natRoot e (k ^ e)) k with h | h
  · have h3 : natRoot e (k ^ e) + 1 ≤ k := by omega
    have h4 : (natRoot e (k ^ e) + 1) ^ e ≤ k ^ e := Nat.pow_le_pow_left h3 e
    omega
  · have h3 : k < natRoot e (k ^ e) := by omega
    have h4 : k + 1 ≤ natRoot e (k ^ e) := by omega
    have h5 : (k + 1) ^ e ≤ (natRoot e (k ^ e)) ^ e := Nat.pow_le_pow_left h4 e
    have h6 : k ^ e < (k + 1) ^ e :=
      Nat.pow_lt_pow_left (by omega) he
    omega

theorem npRound0_le_add_one (q : ℚ) : npRound0 q ≤ ⌊q⌋ + 1 := by
  unfold npRound0
  dsimp only
  split
  · omega
  · split
    · omega
    · split <;> omega

theorem floor_le_npRound0 (q : ℚ) : ⌊q⌋ ≤ npRound0 q := by
  unfold npRound0
  dsimp only
  split
  · omega
  · split
    · omega
    · split <;> omega

theorem npRound0_eq_floor_of_lt_half {q : ℚ} (h : q - (⌊q⌋ : ℚ) < 1/2) :
    npRound0 q = ⌊q⌋ := by
  unfold npRound0
  simp only [if_pos h]

theorem npRound0_eq_succ_of_half_lt {q : ℚ} (h : 1/2 < q - (⌊q⌋ : ℚ)) :
    npRound0 q = ⌊q⌋ + 1 := by
  unfold npRound0
  simp only
  rw [if_neg (by linarith), if_pos h]

theorem npRound0_eq_of_half {q : ℚ} (h : q - (⌊q⌋ : ℚ) = 1/2) :
    npRound0 q = if 2 ∣ ⌊q⌋ then ⌊q⌋ else ⌊q⌋ + 1 := by
  unfold npRound0
  simp only
  rw [if_neg (by linarith), if_neg (by linarith)]

theorem npRound0_mono {a b : ℚ} (h : a ≤ b) : npRound0 a ≤ npRound0 b := by
  by_contra hc
  push_neg at hc
  have la := floor_le_npRound0 a
  have ua := npRound0_le_add_one a
  have lb := floor_le_npRound0 b
  have ub := npRound0_le_add_one b
  have hff := Int.floor_le_floor h
  have hfa : ⌊a⌋ = ⌊b⌋ := by omega
  have hA : npRound0 a = ⌊a⌋ + 1 := by omega
  have hB : npRound0 b = ⌊b⌋ := by omega
  have h3 : 1/2 ≤ a - (⌊a⌋ : ℚ) := by
    by_contra h3
    push_neg at h3
    rw [npRound0_eq_floor_of_lt_half h3] at hA
    omega
  have h4 : b - (⌊b⌋ : ℚ) ≤ 1/2 := by
    by_contra h4
    push_neg at h4
    rw [npRound0_eq_succ_of_half_lt h4] at hB
    omega
  have hco : (⌊a⌋ : ℚ) = (⌊b⌋ : ℚ) := by exact_mod_cast hfa
  have ha2 : a - (⌊a⌋ : ℚ) = 1/2 := by
    have : a - (⌊a⌋ : ℚ) ≤ b - (⌊b⌋ : ℚ) := by rw [hco]; linarith
    linarith
  have hb2 : b - (⌊b⌋ : ℚ) = 1/2 := by
    have : a - (⌊a⌋ : ℚ) ≤ b - (⌊b⌋ : ℚ) := by rw [hco]; linarith
    linarith
  rw [npRound0_eq_of_half ha2] at hA
  rw [npRound0_eq_of_half hb2] at hB
  rw [hfa] at hA
  by_cases hd : 2 ∣ ⌊b⌋
  · rw [if_pos hd] at hA; omega
  · rw [if_neg hd] at hB hA; omega

theorem sqrtA_nonneg (q : ℚ) : 0 ≤ sqrtA q := by
  unfold sqrtA
  positivity

theorem sqrtA_mono {a b : ℚ} (h : a ≤ b) : sqrtA a ≤ sqrtA b := by
  unfold sqrtA
  have h1 : ⌊a * 10 ^ 24⌋ ≤ ⌊b * 10 ^ 24⌋ :=
    Int.floor_le_floor (by nlinarith)
  have h2 : (⌊a * 10 ^ 24⌋).toNat ≤ (⌊b * 10 ^ 24⌋).toNat := Int.toNat_le_toNat h1
  have h3 : natRoot 2 (⌊a * 10 ^ 24⌋).toNat ≤ natRoot 2 (⌊b * 10 ^ 24⌋).toNat :=
    natRoot_mono 2 (by norm_num) h2
  have h4 : ((natRoot 2 (⌊a * 10 ^ 24⌋).toNat : ℚ)) ≤ (natRoot 2 (⌊b * 10 ^ 24⌋).toNat : ℚ) := by
    exact_mod_cast h3
  exact div_le_div_of_nonneg_right h4 (by norm_num) |>.trans_eq rfl

theorem sqrtA_zero : sqrtA 0 = 0 := by
  unfold sqrtA
  norm_num
  have : natRoot 2 0 = 0 := by decide
  simp [this]

theorem sqrtA_sq_le (q : ℚ) (hq : 0 ≤ q) : sqrtA q * sqrtA q ≤ q := by
  unfold sqrtA
  rw [div_mul_div_comm]
  rw [div_le_iff₀ (by norm_num : (0:ℚ) < 10 ^ 12 * 10 ^ 12)]
  have h1 : (natRoot 2 (⌊q * 10 ^ 24⌋).toNat) * (natRoot 2 (⌊q * 10 ^ 24⌋).toNat)
      ≤ (⌊q * 10 ^ 24⌋).toNat := by
    have hs := (natRoot_spec 2 ((⌊q * 10 ^ 24⌋).toNat) (by norm_num)).1
    nlinarith [hs]
  have h2 : ((⌊q * 10 ^ 24⌋).toNat : ℚ) ≤ q * 10 ^ 24 := by
    have hfl : 0 ≤ ⌊q * 10 ^ 24⌋ := Int.floor_nonneg.mpr (by positivity)
    have h3 : ((⌊q * 10 ^ 24⌋).toNat : ℤ) = ⌊q * 10 ^ 24⌋ := Int.toNat_of_nonneg hfl
    calc ((⌊q * 10 ^ 24⌋).toNat : ℚ) = (((⌊q * 10 ^ 24⌋).toNat : ℤ) : ℚ) := by norm_cast
      _ = (⌊q * 10 ^ 24⌋ : ℚ) := by exact_mod_cast h3
      _ ≤ q * 10 ^ 24 := Int.floor_le _
  calc ((natRoot 2 (⌊q * 10 ^ 24⌋).toNat : ℚ)) * (natRoot 2 (⌊q * 10 ^ 24⌋).toNat : ℚ)
      = ((natRoot 2 (⌊q * 10 ^ 24⌋).toNat * natRoot 2 (⌊q * 10 ^ 24⌋).toNat : ℕ) : ℚ) := by
        norm_cast
    _ ≤ ((⌊q * 10 ^ 24⌋).toNat : ℚ) := by exact_mod_cast h1
    _ ≤ q * 10 ^ 24 := h2
    _ = q * (10 ^ 12 * 10 ^ 12) := by ring

theorem sqrtA_pos {q : ℚ} (h : 1 / 10 ^ 24 ≤ q) : 0 < sqrtA q := by
  unfold sqrtA
  have h1 : (1 : ℤ) ≤ ⌊q * 10 ^ 24⌋ := by
    rw [Int.le_floor]
    push_cast
    nlinarith
  have h2 : 1 ≤ (⌊q * 10 ^ 24⌋).toNat := by omega
  have h3 : 1 ≤ natRoot 2 (⌊q * 10 ^ 24⌋).toNat := by
    have hm := natRoot_mono 2 (by norm_num) h2
    have h1r : natRoot 2 1 = 1 := by decide
    omega
  have h4 : (1 : ℚ) ≤ (natRoot 2 (⌊q * 10 ^ 24⌋).toNat : ℚ) := by exact_mod_cast h3
  positivity

theorem cbrtA_mono {a b : ℚ} (h : a ≤ b) : cbrtA a ≤ cbrtA b := by
  unfold cbrtA
  have h1 : ⌊a * 10 ^ 36⌋ ≤ ⌊b * 10 ^ 36⌋ :=
    Int.floor_le_floor (by nlinarith)
  have h2 : (⌊a * 10 ^ 36⌋).toNat ≤ (⌊b * 10 ^ 36⌋).toNat := Int.toNat_le_toNat h1
  have h3 : natRoot 3 (⌊a * 10 ^ 36⌋).toNat ≤ natRoot 3 (⌊b * 10 ^ 36⌋).toNat :=
    natRoot_mono 3 (by norm_num) h2
  have h4 : ((natRoot 3 (⌊a * 10 ^ 36⌋).toNat : ℚ)) ≤ (natRoot 3 (⌊b * 10 ^ 36⌋).toNat : ℚ) := by
    exact_mod_cast h3
  exact div_le_div_of_nonneg_right h4 (by norm_num) |>.trans_eq rfl

theorem cbrtA_ge_two {q : ℚ} (h : 656 ≤ q) : 2 ≤ cbrtA q := by
  unfold cbrtA
  have h1 : (8 * 10 ^ 36 : ℤ) ≤ ⌊q * 10 ^ 36⌋ := by
    rw [Int.le_floor]
    push_cast
    nlinarith
  have h2 : (8 * 10 ^ 36 : ℕ) ≤ (⌊q * 10 ^ 36⌋).toNat := by omega
  have h3 : natRoot 3 (8 * 10 ^ 36) ≤ natRoot 3 (⌊q * 10 ^ 36⌋).toNat :=
    natRoot_mono 3 (by norm_num) h2
  have h4 : natRoot 3 (8 * 10 ^ 36) = 2 * 10 ^ 12 := by
    have := natRoot_pow 3 (by norm_num) (2 * 10 ^ 12)
    have he : (2 * 10 ^ 12 : ℕ) ^ 3 = 8 * 10 ^ 36 := by norm_num
    rw [he] at this
    exact this
  have h5 : (2 * 10 ^ 12 : ℕ) ≤ natRoot 3 (⌊q * 10 ^ 36⌋).toNat := by omega
  have h6 : ((2 * 10 ^ 12 : ℕ) : ℚ) ≤ (natRoot 3 (⌊q * 10 ^ 36⌋).toNat : ℚ) := by
    exact_mod_cast h5
  rw [le_div_iff₀ (by norm_num : (0:ℚ) < 10 ^ 12)]
  push_cast at h6 ⊢
  linarith

theorem length_filter_lt_add_ge (l : List ℚ) (v : ℚ) :
    (l.filter (fun x => x < v)).length + (l.filter (fun x => v ≤ x)).length
      = l.length := by
  induction l with
  | nil => simp
  | cons a t ih =>
    by_cases h : a < v
    · simp only [List.filter_cons]
      rw [if_pos (by simpa using h), if_neg (by simpa using not_le.mpr h)]
      simp only [List.length_cons]
      omega
    · simp only [List.filter_cons]
      rw [if_neg (by simpa using h), if_pos (by simpa using not_lt.mp h)]
      simp only [List.length_cons]
      omega

theorem searchsortedLeft_reverse (l : List ℚ) (v : ℚ) :
    searchsortedLeft l.reverse v = searchsortedLeft l v := by
  unfold searchsortedLeft
  rw [List.filter_reverse, List.length_reverse]

/-- C2 (amended): in denoiseCov, nFacts equals the count of eigenvalues that
are greater than or equal to eMax (ties at eMax are counted as signal
factors), for every eigenvalue list and threshold; the original claim's
strict count is what np.searchsorted with the default side left does not
compute. -/
theorem c2_nFacts_eq_count_ge (eValDesc : List ℚ) (eMax : ℚ) :
    nFactsOf eValDesc eMax = (eValDesc.filter (fun x => eMax ≤ x)).length := by
  unfold nFactsOf
  rw [searchsortedLeft_reverse]
  have h := length_filter_lt_add_ge eValDesc eMax
  unfold searchsortedLeft
  omega

/-- C2 (counterexample): with descending spectrum [1, 1] (the identity
correlation of two assets) and threshold eMax = 1, the source computes
nFacts = 2 while the count of eigenvalues strictly exceeding eMax is 0. -/
theorem c2_nFacts_strict_cex :
    nFactsOf [1, 1] 1 = 2 ∧ nFactsSpecStrict [1, 1] 1 = 0 := by
  constructor
  · norm_num [nFactsOf, searchsortedLeft, List.filter]
  · norm_num [nFactsSpecStrict, List.filter]

/-- C3 (amended): under kind fixed the eigenvalue surgery of denoisedCorr
preserves the sum of eigenvalues exactly; under kind spectral the sum never
increases, and it strictly decreases if and only if the noise eigenvalues
(positions nFacts and beyond) have a strictly positive sum — in particular
a zero noise tail (e.g. a singular correlation matrix) keeps the trace even
though nFacts < n. -/
theorem c3_denoised_eigenvalue_trace (eVal : List ℚ) (nFacts : ℕ)
    (hle : nFacts ≤ eVal.length) (hpos : ∀ x ∈ eVal, 0 ≤ x) :
    (denoisedCorrEigenvalues eVal nFacts "fixed").sum = eVal.sum ∧
    (denoisedCorrEigenvalues eVal nFacts "spectral").sum ≤ eVal.sum ∧
    ((denoisedCorrEigenvalues eVal nFacts "spectral").sum < eVal.sum ↔
      0 < (eVal.drop nFacts).sum) := by
  have hsplit : (eVal.take nFacts).sum + (eVal.drop nFacts).sum = eVal.sum :=
    List.sum_take_add_sum_drop eVal nFacts
  have hdropnn : 0 ≤ (eVal.drop nFacts).sum :=
    List.sum_nonneg (fun x hx => hpos x (List.drop_subset nFacts eVal hx))
  refine ⟨?_, ?_, ?_⟩
  · unfold denoisedCorrEigenvalues
    rw [if_pos rfl]
    rw [List.sum_append, List.sum_replicate, nsmul_eq_mul]
    by_cases hm : eVal.length - nFacts = 0
    · have hnf : nFacts = eVal.length := by omega
      rw [hm]
      subst hnf
      simp
    · have hmq : ((eVal.length - nFacts : ℕ) : ℚ) ≠ 0 := by
        exact_mod_cast hm
      rw [mul_div_cancel₀ _ hmq]
      linarith
  · unfold denoisedCorrEigenvalues
    rw [if_neg (by decide), if_pos rfl]
    rw [List.sum_append, List.sum_replicate]
    simp only [smul_zero, add_zero]
    linarith
  · unfold denoisedCorrEigenvalues
    rw [if_neg (by decide), if_pos rfl]
    rw [List.sum_append, List.sum_replicate]
    simp only [smul_zero, add_zero]
    constructor
    · intro h; linarith
    · intro h; linarith

/-- C3 (witness): concrete run of the amended statement on the spectrum
[3/2, 1/2] with nFacts = 1. -/
theorem c3_denoised_eigenvalue_trace_w :
    (1 ≤ ([3/2, 1/2] : List ℚ).length) ∧
    ((denoisedCorrEigenvalues [3/2, 1/2] 1 "fixed").sum = ([3/2, 1/2] : List ℚ).sum ∧
     (denoisedCorrEigenvalues [3/2, 1/2] 1 "spectral").sum ≤ ([3/2, 1/2] : List ℚ).sum ∧
     ((denoisedCorrEigenvalues [3/2, 1/2] 1 "spectral").sum < ([3/2, 1/2] : List ℚ).sum ↔
       0 < (([3/2, 1/2] : List ℚ).drop 1).sum)) :=
  ⟨by norm_num,
   c3_denoised_eigenvalue_trace [3/2, 1/2] 1 (by norm_num)
     (by intro x hx; simp at hx; rcases hx with h | h <;> rw [h] <;> norm_num)⟩

/-- C3 (counterexample): the descending spectrum [2, 0] (the correlation
matrix of two perfectly correlated assets) with nFacts = 1 under kind
spectral keeps the eigenvalue sum unchanged even though nFacts is not n, so
the trace does not strictly decrease. -/
theorem c3_spectral_strict_decrease_cex :
    (denoisedCorrEigenvalues [2, 0] 1 "spectral").sum = ([2, 0] : List ℚ).sum ∧
    (1 : ℕ) ≠ ([2, 0] : List ℚ).length := by
  constructor
  · norm_num [denoisedCorrEigenvalues]
  · simp

theorem numBinsUniReal_mono {n m : ℕ} (h2 : 2 ≤ n) (hnm : n ≤ m) :
    numBinsUniReal n ≤ numBinsUniReal m := by
  unfold numBinsUniReal
  have hcast : ((n : ℚ)) ≤ (m : ℚ) := by exact_mod_cast hnm
  have hn2 : (2 : ℚ) ≤ (n : ℚ) := by exact_mod_cast h2
  have harg : 36 * (n : ℚ) + 729 * (n : ℚ) ^ 2 ≤ 36 * (m : ℚ) + 729 * (m : ℚ) ^ 2 := by
    nlinarith
  have hw : 8 + 324 * (n : ℚ) + 12 * sqrtA (36 * (n : ℚ) + 729 * (n : ℚ) ^ 2)
      ≤ 8 + 324 * (m : ℚ) + 12 * sqrtA (36 * (m : ℚ) + 729 * (m : ℚ) ^ 2) := by
    have hs := sqrtA_mono harg
    linarith
  have hwlb : (656 : ℚ) ≤ 8 + 324 * (n : ℚ) + 12 * sqrtA (36 * (n : ℚ) + 729 * (n : ℚ) ^ 2) := by
    have hs := sqrtA_nonneg (36 * (n : ℚ) + 729 * (n : ℚ) ^ 2)
    nlinarith
  have hz := cbrtA_mono hw
  have hz2 : (2 : ℚ) ≤ cbrtA (8 + 324 * (n : ℚ) + 12 * sqrtA (36 * (n : ℚ) + 729 * (n : ℚ) ^ 2)) :=
    cbrtA_ge_two hwlb
  set zn := cbrtA (8 + 324 * (n : ℚ) + 12 * sqrtA (36 * (n : ℚ) + 729 * (n : ℚ) ^ 2)) with hzn
  set zm := cbrtA (8 + 324 * (m : ℚ) + 12 * sqrtA (36 * (m : ℚ) + 729 * (m : ℚ) ^ 2)) with hzm
  have hz2m : (2 : ℚ) ≤ zm := le_trans hz2 hz
  have hzn0 : (0 : ℚ) < zn := by linarith
  have hzm0 : (0 : ℚ) < zm := by linarith
  have hd : zm / 6 + 2 / (3 * zm) - (zn / 6 + 2 / (3 * zn))
      = (zm - zn) * (zn * zm - 4) / (6 * zn * zm) := by
    field_simp
    ring
  have hzz : (4 : ℚ) ≤ zn * zm := by nlinarith
  have hnum : 0 ≤ (zm - zn) * (zn * zm - 4) :=
    mul_nonneg (sub_nonneg.mpr hz) (by linarith)
  have hden : 0 < 6 * zn * zm := by positivity
  have hkey : 0 ≤ (zm - zn) * (zn * zm - 4) / (6 * zn * zm) := div_nonneg hnum (le_of_lt hden)
  linarith

/-- C5 (amended): numBins(n, None) is weakly increasing in n for n ≥ 2 (the
rounded integer count never decreases); it is not strictly increasing. -/
theorem c5_numBins_weakly_increasing {n m : ℕ} (h2 : 2 ≤ n) (hnm : n ≤ m) :
    numBinsUni n ≤ numBinsUni m :=
  npRound0_mono (numBinsUniReal_mono h2 hnm)

/-- C5 (witness): the amended monotonicity instantiated at n = 2, m = 3. -/
theorem c5_numBins_weakly_increasing_w :
    2 ≤ 2 ∧ 2 ≤ 3 ∧ numBinsUni 2 ≤ numBinsUni 3 :=
  ⟨le_refl 2, by norm_num, c5_numBins_weakly_increasing (le_refl 2) (by norm_num)⟩

set_option maxRecDepth 40000 in
theorem numBinsUni_two_eval : numBinsUni 2 = 2 := by
  have hT1 : Int.toNat 2988000000000000000000000000 = 2988000000000000000000000000 := rfl
  have hT2 : Int.toNat 1311951217698380000000000000000000000000
      = 1311951217698380000000000000000000000000 := rfl
  have hA2 : natRoot 2 2988000000000000000000000000 = 54662601474865 := by decide
  have hB2 : natRoot 3 1311951217698380000000000000000000000000 = 10947271667090 := by decide
  unfold numBinsUni numBinsUniReal cbrtA sqrtA
  norm_num [hA2, hB2, hT1, hT2, npRound0]

set_option maxRecDepth 40000 in
theorem numBinsUni_three_eval : numBinsUni 3 = 2 := by
  have hT3 : Int.toNat 6669000000000000000000000000 = 6669000000000000000000000000 := rfl
  have hT4 : Int.toNat 1959967346394764000000000000000000000000
      = 1959967346394764000000000000000000000000 := rfl
  have hA3 : natRoot 2 6669000000000000000000000000 = 81663945532897 := by decide
  have hB3 : natRoot 3 1959967346394764000000000000000000000000 = 12514579992934 := by decide
  unfold numBinsUni numBinsUniReal cbrtA sqrtA
  norm_num [hA3, hB3, hT3, hT4, npRound0]

/-- C5 (counterexample): numBins(2, None) = numBins(3, None) = 2, so the
univariate bin count is not a strictly increasing function of n on n ≥ 2. -/
theorem c5_numBins_strictly_increasing_cex :
    numBinsUni 2 = 2 ∧ numBinsUni 3 = 2 ∧ ¬ (numBinsUni 2 < numBinsUni 3) := by
  refine ⟨numBinsUni_two_eval, numBinsUni_three_eval, ?_⟩
  rw [numBinsUni_two_eval, numBinsUni_three_eval]
  omega

theorem fclusterRederiveLoop_cap3_none :
    ∀ fuel j, 4 ≤ j → fclusterRederiveLoop fclusterCap3 fuel 3 j = none := by
  intro fuel
  induction fuel with
  | zero => intro j hj; rfl
  | succ f ih =>
    intro j hj
    unfold fclusterRederiveLoop
    rw [if_neg (by omega)]
    have hc : fclusterCap3 (j + 1) = 3 := by
      unfold fclusterCap3
      omega
    rw [hc]
    exact ih (j + 1) (by omega)

/-- C9 (counterexample): with the collaborator behavior fclusterCap3
(consistent with fcluster's maxclust contract: at most j clusters for target
j, realizable counts capped at 3, as a linkage with zero-height merges
forces) and chosen k = 4, the re-derivation loop of two_diff_gap_stat /
std_silhouette_score never terminates: no amount of fuel returns a result,
and no DomainError is ever raised (the loop has no raise site). -/
theorem c9_rederive_divergence_cex : rederiveDiverges fclusterCap3 4 := by
  intro fuel
  unfold rederiveClusters
  have h4 : fclusterCap3 4 = 3 := rfl
  rw [h4]
  cases fuel with
  | zero => rfl
  | succ f =>
    unfold fclusterRederiveLoop
    rw [if_neg (by omega)]
    have hc : fclusterCap3 (3 + 1) = 3 := rfl
    rw [hc]
    exact fclusterRederiveLoop_cap3_none f 4 (by omega)

theorem fclusterRederiveLoop_terminates_aux (f : ℕ → ℕ) (n : ℕ) (hfn : f n = n) :
    ∀ d j, n - j ≤ d → j ≤ n → (fclusterRederiveLoop f (d + 1) (f j) j).isSome := by
  intro d
  induction d with
  | zero =>
    intro j h1 h2
    have hj : j = n := by omega
    subst hj
    unfold fclusterRederiveLoop
    rw [hfn, if_pos rfl]
    rfl
  | succ d ih =>
    intro j h1 h2
    unfold fclusterRederiveLoop
    by_cases hc : f j = j
    · rw [if_pos hc]; rfl
    · rw [if_neg hc]
      have hjn : j ≠ n := by
        intro he
        subst he
        exact hc hfn
      exact ih (j + 1) (by omega) (by omega)

/-- C9 (amended): the source's re-derivation loop has no bound of its own
and raises no DomainError; whenever the fcluster collaborator realizes
exactly n distinct clusters at target n (at most j clusters per target j,
the documented maxclust contract, and no zero-height merges forcing
under-production) the loop terminates within n + 2 iterations from any
chosen k at most n; for contract-consistent collaborator behaviors whose
realizable counts stay below the chosen k the loop diverges, so
two_diff_gap_stat and std_silhouette_score are not total on their valid
input domain. -/
theorem c9_rederive_terminates (f : ℕ → ℕ) (n kT : ℕ)
    (hle : ∀ j, f j ≤ j) (hfn : f n = n) (hkT : kT ≤ n) :
    (rederiveClusters f (n + 2) kT).isSome := by
  unfold rederiveClusters
  show (fclusterRederiveLoop f (n + 1 + 1) kT (f kT)).isSome
  unfold fclusterRederiveLoop
  by_cases hc : kT = f kT
  · rw [if_pos hc]; rfl
  · rw [if_neg hc]
    have hfkT : f kT ≤ n := le_trans (hle kT) hkT
    have hlt : f kT < n := by
      rcases Nat.lt_or_ge (f kT) n with h | h
      · exact h
      · exfalso
        have he : f kT = n := by omega
        have hkTn : kT = n := by
          have := hle kT
          omega
        subst hkTn
        exact hc hfn.symm
    have := fclusterRederiveLoop_terminates_aux f n hfn n (f kT + 1) (by omega) (by omega)
    exact this

/-- C9 (witness): the termination bound instantiated with the identity
collaborator (every target realized exactly) at n = 2, k = 1. -/
theorem c9_rederive_terminates_w :
    (∀ j, (fun j : ℕ => j) j ≤ j) ∧ ((fun j : ℕ => j) 2 = 2) ∧ 1 ≤ 2 ∧
    (rederiveClusters (fun j : ℕ => j) (2 + 2) 1).isSome :=
  ⟨fun j => le_refl j, rfl, by norm_num,
   c9_rederive_terminates (fun j : ℕ => j) 2 1 (fun j => le_refl j) rfl (by norm_num)⟩

/-- C1 (amended): for every codependence kind outside the dispatch table,
codep_dist fails, but with Python's UnboundLocalError at the final return
(the locals codep and dist are never assigned), not with a
ValueError-family InvalidArgument; no branch executes, so no partial
computation occurs, but no explicit validation exists either. -/
theorem c1_unknown_kind_unboundLocal (CK : CodepKernels) (SK : StatKernels)
    (X : List (List ℚ)) (cc : List (List ℚ)) (bi : BinsInfo) (alpha : ℚ)
    (kind : String) (h : kind ∉ codepKinds) :
    codep_dist CK SK X cc kind bi alpha = Except.error PyErr.unboundLocal := by
  unfold codepKinds at h
  simp only [List.mem_cons, List.not_mem_nil, or_false, not_or] at h
  obtain ⟨h1, h2, h3, h4, h5, h6, h7, h8, h9, h10, h11, h12⟩ := h
  unfold codep_dist
  rw [if_neg (by tauto), if_neg h4, if_neg h5, if_neg (by tauto),
      if_neg h9, if_neg h10, if_neg h11, if_neg h12]

/-- C1 (witness): the amended statement at the concrete unknown kind foo. -/
theorem c1_unknown_kind_unboundLocal_w :
    ("foo" ∉ codepKinds) ∧
    codep_dist CK0 SK0 [[0]] [[1]] "foo" (BinsInfo.fixedI 2) (1/20)
      = Except.error PyErr.unboundLocal :=
  ⟨by decide,
   c1_unknown_kind_unboundLocal CK0 SK0 [[0]] [[1]] (BinsInfo.fixedI 2) (1/20)
     "foo" (by decide)⟩

/-- C1 (counterexample): at the concrete unknown kind foo the failure of
codep_dist is an UnboundLocalError, which is not the ValueError class that
the spec's InvalidArgument denotes, so the claim as stated is false. -/
theorem c1_unknown_kind_cex :
    codep_dist CK0 SK0 [[0]] [[1]] "foo" (BinsInfo.fixedI 2) (1/20)
      = Except.error PyErr.unboundLocal ∧
    (Except.error PyErr.unboundLocal : Except PyErr (PMat × PMat))
      ≠ Except.error PyErr.valueError := by
  constructor
  · unfold codep_dist
    rw [if_neg (by decide), if_neg (by decide), if_neg (by decide),
        if_neg (by decide), if_neg (by decide), if_neg (by decide),
        if_neg (by decide), if_neg (by decide)]
  · intro h
    injection h with h
    exact PyErr.noConfusion h

theorem clipRound0_nan : clipRound0 PFloat.nan = PFloat.nan := rfl

theorem clipRound0_nonneg_or_nan (p : PFloat) :
    clipRound0 p = PFloat.nan ∨ PFloat.leB (PFloat.val 0) (clipRound0 p) = true := by
  cases p with
  | nan => exact Or.inl rfl
  | inf => exact Or.inr rfl
  | ninf =>
    right
    simp [clipRound0, PFloat.round8, PFloat.clip, PFloat.pmax, PFloat.pmin, PFloat.leB]
  | val q =>
    right
    simp [clipRound0, PFloat.round8, PFloat.clip, PFloat.pmax, PFloat.pmin, PFloat.leB]

theorem mget_mmap (f : PFloat → PFloat) (hf : f PFloat.nan = PFloat.nan)
    (M : PMat) (i j : ℕ) : mget (mmap f M) i j = f (mget M i j) := by
  unfold mget mmap
  simp only [List.getD_eq_getElem?_getD, List.getElem?_map]
  cases h : M[i]? with
  | none => simp [h, hf]
  | some row =>
    simp only [h, Option.map_some', Option.getD_some]
    cases hr : row[j]? with
    | none => simp [h, hr, hf]
    | some p => simp [h, hr]

theorem exSeq_ok {α : Type} : ∀ {l : List (Except PyErr α)} {ys : List α},
    exSeq l = Except.ok ys →
    ys.length = l.length ∧
      ∀ (i : ℕ) (a : α), ys[i]? = some a → l[i]? = some (Except.ok a) := by
  intro l
  induction l with
  | nil =>
    intro ys h
    unfold exSeq at h
    cases h
    refine ⟨rfl, ?_⟩
    intro i a ha
    simp at ha
  | cons x t ih =>
    intro ys h
    unfold exSeq at h
    cases x with
    | error e => simp [Bind.bind, Except.bind] at h
    | ok a =>
      cases ht : exSeq t with
      | error e => rw [ht] at h; simp [Bind.bind, Except.bind] at h
      | ok r =>
        rw [ht] at h
        simp only [Bind.bind, Except.bind] at h
        cases h
        obtain ⟨ihl, ihg⟩ := ih ht
        constructor
        · simp [ihl]
        · intro i b hb
          cases i with
          | zero =>
            simp only [List.getElem?_cons_zero, Option.some.injEq] at hb ⊢
            rw [hb]
          | succ i =>
            simp only [List.getElem?_cons_succ] at hb ⊢
            exact ihg i b hb

theorem buildSym_ok_shape {n : ℕ} {entry : ℕ → ℕ → Except PyErr PFloat} {M : PMat}
    (h : buildSym n entry = Except.ok M) :
    M.length = n ∧ ∀ i, i < n → ∃ row, M[i]? = some row ∧ row.length = n := by
  unfold buildSym at h
  obtain ⟨hl, hg⟩ := exSeq_ok h
  simp only [List.length_map, List.length_range] at hl
  refine ⟨hl, ?_⟩
  intro i hi
  have hi2 : i < M.length := by omega
  have hrow : M[i]? = some (M[i]) := List.getElem?_eq_getElem hi2
  refine ⟨M[i], hrow, ?_⟩
  have h2 := hg i (M[i]) hrow
  rw [List.getElem?_map, List.getElem?_range hi] at h2
  simp only [Option.map_some', Option.some.injEq] at h2
  obtain ⟨hl2, -⟩ := exSeq_ok h2
  simpa using hl2

theorem buildSym_ok_mget {n : ℕ} {entry : ℕ → ℕ → Except PyErr PFloat} {M : PMat}
    (h : buildSym n entry = Except.ok M) {i j : ℕ} (hi : i < n) (hj : j < n) :
    entry (min i j) (max i j) = Except.ok (mget M i j) := by
  have hsh := buildSym_ok_shape h
  unfold buildSym at h
  obtain ⟨hl, hg⟩ := exSeq_ok h
  have hi2 : i < M.length := by omega
  have hrow : M[i]? = some (M[i]) := List.getElem?_eq_getElem hi2
  have h2 := hg i (M[i]) hrow
  rw [List.getElem?_map, List.getElem?_range hi] at h2
  simp only [Option.map_some', Option.some.injEq] at h2
  obtain ⟨hl2, hg2⟩ := exSeq_ok h2
  simp only [List.length_map, List.length_range] at hl2
  have hj2 : j < (M[i]).length := by omega
  have hcell : (M[i])[j]? = some ((M[i])[j]) := List.getElem?_eq_getElem hj2
  have h4 := hg2 j ((M[i])[j]) hcell
  rw [List.getElem?_map, List.getElem?_range hj] at h4
  simp only [Option.map_some', Option.some.injEq] at h4
  have hm : mget M i j = (M[i])[j] := by
    unfold mget
    simp only [List.getD_eq_getElem?_getD]
    rw [hrow]
    simp only [Option.getD_some]
    rw [hcell, Option.getD_some]
  rw [hm]
  exact h4

theorem except_map_ok {α β : Type} {x : Except PyErr α} {f : α → β} {y : β}
    (h : (do let a ← x; pure (f a) : Except PyErr β) = Except.ok y) :
    ∃ a, x = Except.ok a ∧ y = f a := by
  cases x with
  | error e => simp [Bind.bind, Except.bind] at h
  | ok a =>
    simp only [Bind.bind, Except.bind, pure, Except.pure, Except.ok.injEq] at h
    exact ⟨a, rfl, h.symm⟩

/-- C4 (amended): every entry of a successfully returned mutual-information
or variation-of-information matrix is either nan or at least 0 after the
final clipping np.clip(np.round(mat, 8), 0, inf); nan entries do occur (the
normalization divides by a zero marginal or joint entropy, e.g. on a
constant column), and a nan entry is not greater than or equal to 0 in IEEE
comparison, which is the only failure of the claim. -/
theorem c4_info_matrix_entries_nonneg_or_nan
    (SK : StatKernels) (bi : BinsInfo) (X : List (List ℚ)) (normalize : Bool)
    (M N : PMat)
    (hM : mutual_info_matrix SK bi X normalize = Except.ok M)
    (hN : var_info_matrix SK bi X normalize = Except.ok N) (i j : ℕ) :
    (mget M i j = PFloat.nan ∨ PFloat.leB (PFloat.val 0) (mget M i j) = true) ∧
    (mget N i j = PFloat.nan ∨ PFloat.leB (PFloat.val 0) (mget N i j) = true) := by
  constructor
  · unfold mutual_info_matrix at hM
    obtain ⟨M0, -, hMe⟩ := except_map_ok hM
    subst hMe
    rw [mget_mmap clipRound0 clipRound0_nan]
    exact clipRound0_nonneg_or_nan _
  · unfold var_info_matrix at hN
    obtain ⟨N0, -, hNe⟩ := except_map_ok hN
    subst hNe
    rw [mget_mmap clipRound0 clipRound0_nan]
    exact clipRound0_nonneg_or_nan _

theorem miMat_eval_01 :
    mutual_info_matrix SK0 (BinsInfo.fixedI 2) [[0], [1]] false
      = Except.ok [[PFloat.val 0]] := by
  unfold mutual_info_matrix buildSym numAssets
  norm_num [exSeq, Bind.bind, Except.bind, binsFor, miEntry, SK0, mmap,
    clipRound0, PFloat.round8, PFloat.clip, PFloat.pmax, PFloat.pmin,
    round8Q, npRound0, pure, Except.pure, List.range_succ]

theorem viMat_eval_01 :
    var_info_matrix SK0 (BinsInfo.fixedI 2) [[0], [1]] false
      = Except.ok [[PFloat.val 0]] := by
  unfold var_info_matrix buildSym numAssets
  norm_num [exSeq, Bind.bind, Except.bind, binsFor, viEntry, SK0, mmap,
    clipRound0, PFloat.round8, PFloat.clip, PFloat.pmax, PFloat.pmin,
    round8Q, npRound0, pure, Except.pure, List.range_succ]

/-- C4 (witness): concrete successful run of both builders on the two-sample
single-asset input transposed([[0, 1]]) with fixed integer bins 2 and no
normalization; both entries evaluate to 0 and satisfy the amended bound. -/
theorem c4_info_matrix_entries_nonneg_or_nan_w :
    (mutual_info_matrix SK0 (BinsInfo.fixedI 2) [[0], [1]] false
        = Except.ok [[PFloat.val 0]]) ∧
    (var_info_matrix SK0 (BinsInfo.fixedI 2) [[0], [1]] false
        = Except.ok [[PFloat.val 0]]) ∧
    ((mget [[PFloat.val 0]] 0 0 = PFloat.nan ∨
        PFloat.leB (PFloat.val 0) (mget [[PFloat.val 0]] 0 0) = true) ∧
     (mget [[PFloat.val 0]] 0 0 = PFloat.nan ∨
        PFloat.leB (PFloat.val 0) (mget [[PFloat.val 0]] 0 0) = true)) :=
  ⟨miMat_eval_01, viMat_eval_01,
   c4_info_matrix_entries_nonneg_or_nan SK0 (BinsInfo.fixedI 2) [[0], [1]] false
     [[PFloat.val 0]] [[PFloat.val 0]] miMat_eval_01 viMat_eval_01 0 0⟩

theorem int_toNat_two : Int.toNat 2 = 2 := rfl

theorem histCounts_const01 : histCounts (col [[(0:ℚ)], [0]] 0) 2 = [0, 2] := by
  norm_num [histCounts, histEdges, colMin, colMax, col, binIdx,
    List.range_succ, List.filter]

theorem hist2d_const01 :
    hist2d (col [[(0:ℚ)], [0]] 0) (col [[(0:ℚ)], [0]] 0) 2 = [[0, 0], [0, 2]] := by
  norm_num [hist2d, histEdges, colMin, colMax, col, binIdx,
    List.range_succ, List.filter, List.zip]

/-- Any statistical kernels satisfying the documented contract (Shannon
entropy and sklearn mutual information included) produce the nan entry on
the constant input: the one-hot marginal histogram has zero entropy, the
single-row contingency has zero mutual information, and 0/0 is nan. -/
theorem info_nan_for_lawful_kernels (SK : StatKernels)
    (hSK : LawfulStatKernels SK) :
    mutual_info_matrix SK (BinsInfo.fixedI 2) [[0], [0]] true
      = Except.ok [[PFloat.nan]] := by
  have hent : SK.entropy (histCounts (col [[(0:ℚ)], [0]] 0) 2) = 0 := by
    rw [histCounts_const01]
    apply hSK.entropy_onehot
    norm_num [List.filter]
  have hmi : SK.mutualInfo (hist2d (col [[(0:ℚ)], [0]] 0) (col [[(0:ℚ)], [0]] 0) 2) = 0 := by
    rw [hist2d_const01]
    apply hSK.mi_onehot_row
    norm_num [List.filter, List.any]
  unfold mutual_info_matrix buildSym numAssets
  norm_num [exSeq, Bind.bind, Except.bind, binsFor, miEntry, int_toNat_two,
    hent, hmi, mmap, clipRound0, PFloat.div, PFloat.round8, PFloat.clip,
    PFloat.pmax, PFloat.pmin, pure, Except.pure, List.range_succ]

theorem lawful_SK0 : LawfulStatKernels SK0 := by
  constructor
  · intro c hc; exact le_refl 0
  · intro c hc; rfl
  · intro t; exact le_refl 0
  · intro t ht; rfl

/-- C4 (counterexample): on the finite input with two observations of a
constant column, fixed bin rule 2 and the default normalization, both
matrices are returned with their only entry nan, and nan is not greater
than or equal to 0; the statistical kernels used satisfy the documented
contract of scipy entropy and sklearn mutual information. -/
theorem miMat_eval_const :
    mutual_info_matrix SK0 (BinsInfo.fixedI 2) [[0], [0]] true
      = Except.ok [[PFloat.nan]] := by
  unfold mutual_info_matrix buildSym numAssets
  norm_num [exSeq, Bind.bind, Except.bind, binsFor, miEntry, SK0, mmap,
    clipRound0, PFloat.div, PFloat.round8, PFloat.clip, PFloat.pmax,
    PFloat.pmin, pure, Except.pure, List.range_succ]

theorem viMat_eval_const :
    var_info_matrix SK0 (BinsInfo.fixedI 2) [[0], [0]] true
      = Except.ok [[PFloat.nan]] := by
  unfold var_info_matrix buildSym numAssets
  norm_num [exSeq, Bind.bind, Except.bind, binsFor, viEntry, SK0, mmap,
    clipRound0, PFloat.div, PFloat.round8, PFloat.clip, PFloat.pmax,
    PFloat.pmin, pure, Except.pure, List.range_succ]

theorem c4_info_matrix_nonneg_cex :
    mutual_info_matrix SK0 (BinsInfo.fixedI 2) [[0], [0]] true
      = Except.ok [[PFloat.nan]] ∧
    var_info_matrix SK0 (BinsInfo.fixedI 2) [[0], [0]] true
      = Except.ok [[PFloat.nan]] ∧
    mget [[PFloat.nan]] 0 0 = PFloat.nan ∧
    PFloat.leB (PFloat.val 0) PFloat.nan = false ∧
    LawfulStatKernels SK0 :=
  ⟨miMat_eval_const, viMat_eval_const, rfl, rfl, lawful_SK0⟩

theorem natRoot2_1e24 : natRoot 2 1000000000000000000000000 = 1000000000000 := by
  decide

theorem int_toNat_1e24 :
    Int.toNat 1000000000000000000000000 = 1000000000000000000000000 := rfl

theorem sqrtA_one : sqrtA 1 = 1 := by
  unfold sqrtA
  norm_num [int_toNat_1e24, natRoot2_1e24]

theorem corrcoef_neg_pair :
    corrcoefP [-1, 0, 1] [1, 0, -1] = PFloat.val (-1) := by
  unfold corrcoefP
  norm_num [List.zip, sqrtA_one, PFloat.div, PFloat.clip, PFloat.pmax, PFloat.pmin]

theorem corrcoef_diag_a :
    corrcoefP [-1, 0, 1] [-1, 0, 1] = PFloat.val 1 := by
  unfold corrcoefP
  norm_num [List.zip, sqrtA_one, PFloat.div, PFloat.clip, PFloat.pmax, PFloat.pmin]

theorem corrcoef_diag_b :
    corrcoefP [1, 0, -1] [1, 0, -1] = PFloat.val 1 := by
  unfold corrcoefP
  norm_num [List.zip, sqrtA_one, PFloat.div, PFloat.clip, PFloat.pmax, PFloat.pmin]

theorem numBins_none_eval (m : ℕ) : numBins m none = Except.ok (numBinsUni m) := rfl

theorem numBins_neg_one_eval :
    numBins 3 (some (PFloat.val (-1))) = Except.error PyErr.nonFiniteCast := by
  have hpos : 0 < sqrtA (1/2) := sqrtA_pos (by norm_num)
  unfold numBins
  norm_num [PFloat.mul, PFloat.sub, PFloat.add, PFloat.neg, PFloat.div,
    PFloat.sqrtP, PFloat.roundP0, PFloat.toInt32, hpos]

/-- C10 (amended): with bins_info HGR the builders special-case only a
pairwise correlation exactly +1; on the input whose two columns are exactly
anti-correlated the computed correlation is exactly -1, the bivariate
denominator 1 - corr^2 is exactly 0, the division silently yields +inf
(numpy raises no ZeroDivisionError), and the unhandled non-finite bin count
makes both mutual_info_matrix and var_info_matrix fail when the count is
converted to an integer / consumed by the histogram, for every statistical
kernel and normalization flag. -/
theorem c10_hgr_neg_one_escapes (SK : StatKernels) (normalize : Bool) :
    corrcoefP [-1, 0, 1] [1, 0, -1] = PFloat.val (-1) ∧
    PFloat.sub (PFloat.val 1)
      (PFloat.mul (PFloat.val (-1)) (PFloat.val (-1))) = PFloat.val 0 ∧
    PFloat.div (PFloat.val 72) (PFloat.val 0) = PFloat.inf ∧
    mutual_info_matrix SK BinsInfo.hgr [[-1, 1], [0, 0], [1, -1]] normalize
      = Except.error PyErr.nonFiniteCast ∧
    var_info_matrix SK BinsInfo.hgr [[-1, 1], [0, 0], [1, -1]] normalize
      = Except.error PyErr.nonFiniteCast := by
  have hc0 : col [[-1, 1], [0, 0], [1, -1]] 0 = [-1, 0, 1] := by
    norm_num [col]
  have hc1 : col [[-1, 1], [0, 0], [1, -1]] 1 = [1, 0, -1] := by
    norm_num [col]
  refine ⟨corrcoef_neg_pair, ?_, ?_, ?_, ?_⟩
  · norm_num [PFloat.sub, PFloat.mul, PFloat.neg, PFloat.add]
  · norm_num [PFloat.div]
  · unfold mutual_info_matrix buildSym numAssets
    norm_num [exSeq, Bind.bind, Except.bind, binsFor, hc0, hc1,
      corrcoef_neg_pair, corrcoef_diag_a, corrcoef_diag_b,
      numBins_neg_one_eval, numBins_none_eval, numBinsUni_three_eval,
      miEntry, int_toNat_two, pure, Except.pure, List.range_succ]
  · unfold var_info_matrix buildSym numAssets
    norm_num [exSeq, Bind.bind, Except.bind, binsFor, hc0, hc1,
      corrcoef_neg_pair, corrcoef_diag_a, corrcoef_diag_b,
      numBins_neg_one_eval, numBins_none_eval, numBinsUni_three_eval,
      viEntry, int_toNat_two, pure, Except.pure, List.range_succ]

/-- C10 (counterexample): the escaping failure on the exactly
anti-correlated input is the non-finite-cast rejection, not a
ZeroDivisionError — the division by the zero denominator itself produces
+inf silently, so no division-by-zero error exists to escape. -/
theorem c10_division_error_class_cex :
    mutual_info_matrix SK0 BinsInfo.hgr [[-1, 1], [0, 0], [1, -1]] true
      = Except.error PyErr.nonFiniteCast ∧
    PyErr.nonFiniteCast ≠ PyErr.zeroDivisionError ∧
    PFloat.div (PFloat.val 72) (PFloat.val 0) = PFloat.inf := by
  refine ⟨(c10_hgr_neg_one_escapes SK0 true).2.2.2.1, ?_, ?_⟩
  · intro h
    exact PyErr.noConfusion h
  · norm_num [PFloat.div]

theorem map_const_range {α : Type} (n : ℕ) (c : α) :
    (List.range n).map (fun _ => c) = List.replicate n c := by
  induction n with
  | zero => rfl
  | succ n ih =>
    rw [List.range_succ, List.map_append, ih, List.map_singleton,
      List.replicate_succ']

/-- C6 (confirmed): ltdi_matrix(X, alpha = 0) is the all-ones n x n matrix
for every input X: k = ceil(m * 0) = 0, the ones matrix is kept as is, and
the final np.clip(np.round(., 8), 1e-8, 1) fixes 1. -/
theorem c6_ltdi_alpha_zero_all_ones (X : List (List ℚ)) :
    ltdi_matrix X 0 = List.replicate (numAssets X) (List.replicate (numAssets X) 1) := by
  unfold ltdi_matrix
  have hk : Int.toNat ⌈((X.length : ℚ)) * 0⌉ = 0 := by norm_num
  have h1 : clipQ (round8Q 1) (1 / 10 ^ 8) 1 = 1 := by
    norm_num [clipQ, round8Q, npRound0]
  simp only [hk, reduceIte, h1, map_const_range]

theorem mget_mkMatP (f : ℕ → ℕ → PFloat) {n i j : ℕ} (hi : i < n) (hj : j < n) :
    mget ((List.range n).map (fun i => (List.range n).map (fun j => f i j))) i j
      = f i j := by
  unfold mget
  simp only [List.getD_eq_getElem?_getD, List.getElem?_map, List.getElem?_range hi,
    Option.map_some', Option.getD_some, List.getElem?_range hj]

theorem qget_mkMatQ (f : ℕ → ℕ → ℚ) {n i j : ℕ} (hi : i < n) (hj : j < n) :
    qget ((List.range n).map (fun i => (List.range n).map (fun j => f i j))) i j
      = f i j := by
  unfold qget
  simp only [List.getD_eq_getElem?_getD, List.getElem?_map, List.getElem?_range hi,
    Option.map_some', Option.getD_some, List.getElem?_range hj]

theorem shape_mkMatQ (f : ℕ → ℕ → ℚ) (n : ℕ) :
    ShapeN ((List.range n).map (fun i => (List.range n).map (fun j => f i j))) n := by
  constructor
  · simp
  · intro row hrow
    simp only [List.mem_map] at hrow
    obtain ⟨i, -, hrow⟩ := hrow
    rw [← hrow]
    simp

theorem mget_toPM {A : List (List ℚ)} {n i j : ℕ} (hS : ShapeN A n)
    (hi : i < n) (hj : j < n) :
    mget (toPM A) i j = PFloat.val (qget A i j) := by
  obtain ⟨hlen, hrows⟩ := hS
  have hi2 : i < A.length := by omega
  have hrow : A[i]? = some (A[i]) := List.getElem?_eq_getElem hi2
  have hrl : (A[i]).length = n := hrows _ (List.getElem_mem hi2)
  have hj2 : j < (A[i]).length := by omega
  have hcell : (A[i])[j]? = some ((A[i])[j]) := List.getElem?_eq_getElem hj2
  unfold mget toPM qget
  simp only [List.getD_eq_getElem?_getD, List.getElem?_map, hrow,
    Option.map_some', Option.getD_some, hcell]

theorem distHalf_nan : distHalf PFloat.nan = PFloat.nan := rfl

theorem distOne_nan : distOne PFloat.nan = PFloat.nan := rfl

theorem distHalf_val (q : ℚ) :
    distHalf (PFloat.val q) = PFloat.val (sqrtA ((((1 + -q) / 2) ⊔ 0) ⊓ 1)) := by
  have harg : ¬ ((((1 + -q) / 2) ⊔ 0) ⊓ 1 < (0:ℚ)) := by
    push_neg
    exact le_min (le_max_right _ 0) (by norm_num)
  simp [distHalf, PFloat.sub, PFloat.add, PFloat.neg, PFloat.div, PFloat.clip,
    PFloat.pmax, PFloat.pmin, PFloat.sqrtP, harg]

theorem distOne_val (q : ℚ) :
    distOne (PFloat.val q) = PFloat.val (sqrtA (((1 + -q) ⊔ 0) ⊓ 1)) := by
  have harg : ¬ (((1 + -q) ⊔ 0) ⊓ 1 < (0:ℚ)) := by
    push_neg
    exact le_min (le_max_right _ 0) (by norm_num)
  simp [distOne, PFloat.sub, PFloat.add, PFloat.neg, PFloat.clip,
    PFloat.pmax, PFloat.pmin, PFloat.sqrtP, harg]

theorem leB_val_sqrtA (x : ℚ) :
    PFloat.leB (PFloat.val 0) (PFloat.val (sqrtA x)) = true := by
  simp [PFloat.leB]
  exact sqrtA_nonneg x

theorem distHalf_val_one : distHalf (PFloat.val 1) = PFloat.val 0 := by
  rw [distHalf_val]
  norm_num [sqrtA_zero]

theorem distOne_val_one : distOne (PFloat.val 1) = PFloat.val 0 := by
  rw [distOne_val]
  norm_num [sqrtA_zero]

theorem nonnegN_imp {M : PMat} {n : ℕ} (h : NonnegN M n) : NonnegOrNanN M n :=
  fun i j hi hj => Or.inr (h i j hi hj)

theorem buildSym_symm {n : ℕ} {entry : ℕ → ℕ → Except PyErr PFloat} {M0 : PMat}
    (h : buildSym n entry = Except.ok M0) {i j : ℕ} (hi : i < n) (hj : j < n) :
    mget M0 i j = mget M0 j i := by
  have h1 := buildSym_ok_mget h hi hj
  have h2 := buildSym_ok_mget h hj hi
  rw [min_comm j i, max_comm j i] at h2
  rw [h1] at h2
  injection h2

theorem clipQ_bounds (q lo hi : ℚ) (h : lo ≤ hi) :
    lo ≤ clipQ q lo hi ∧ clipQ q lo hi ≤ hi := by
  unfold clipQ
  constructor
  · exact le_min h (le_max_left lo q)
  · exact min_le_left hi _

theorem pabs_nan : pabs PFloat.nan = PFloat.nan := rfl

theorem distHalf_family (A : List (List ℚ)) (n : ℕ) (hS : ShapeN A n)
    (hsym : IsSymmQ A n) :
    SymmN (mmap distHalf (toPM A)) n ∧ NonnegN (mmap distHalf (toPM A)) n ∧
    (UnitDiagQ A n → ZeroDiagN (mmap distHalf (toPM A)) n) := by
  refine ⟨?_, ?_, ?_⟩
  · intro i j hi hj
    rw [mget_mmap distHalf distHalf_nan, mget_mmap distHalf distHalf_nan,
        mget_toPM hS hi hj, mget_toPM hS hj hi, hsym i j hi hj]
  · intro i j hi hj
    rw [mget_mmap distHalf distHalf_nan, mget_toPM hS hi hj, distHalf_val]
    exact leB_val_sqrtA _
  · intro hud i hi
    rw [mget_mmap distHalf distHalf_nan, mget_toPM hS hi hi, hud i hi,
        distHalf_val_one]

theorem distOne_family (D : List (List ℚ)) (n : ℕ) (hS : ShapeN D n)
    (hsym : IsSymmQ D n) :
    SymmN (mmap distOne (toPM D)) n ∧ NonnegN (mmap distOne (toPM D)) n := by
  constructor
  · intro i j hi hj
    rw [mget_mmap distOne distOne_nan, mget_mmap distOne distOne_nan,
        mget_toPM hS hi hj, mget_toPM hS hj hi, hsym i j hi hj]
  · intro i j hi hj
    rw [mget_mmap distOne distOne_nan, mget_toPM hS hi hj, distOne_val]
    exact leB_val_sqrtA _

theorem distOneAbs_family (A : List (List ℚ)) (n : ℕ) (hS : ShapeN A n)
    (hsym : IsSymmQ A n) :
    SymmN (mmap distOne (mmap pabs (toPM A))) n ∧
    NonnegN (mmap distOne (mmap pabs (toPM A))) n ∧
    (UnitDiagQ A n → ZeroDiagN (mmap distOne (mmap pabs (toPM A))) n) := by
  refine ⟨?_, ?_, ?_⟩
  · intro i j hi hj
    rw [mget_mmap distOne distOne_nan, mget_mmap distOne distOne_nan,
        mget_mmap pabs pabs_nan, mget_mmap pabs pabs_nan,
        mget_toPM hS hi hj, mget_toPM hS hj hi, hsym i j hi hj]
  · intro i j hi hj
    rw [mget_mmap distOne distOne_nan, mget_mmap pabs pabs_nan,
        mget_toPM hS hi hj]
    show PFloat.leB (PFloat.val 0) (distOne (PFloat.val |qget A i j|)) = true
    rw [distOne_val]
    exact leB_val_sqrtA _
  · intro hud i hi
    rw [mget_mmap distOne distOne_nan, mget_mmap pabs pabs_nan,
        mget_toPM hS hi hi, hud i hi]
    show distOne (PFloat.val |(1:ℚ)|) = PFloat.val 0
    rw [abs_one, distOne_val_one]

theorem mget_cov2corr {G : List (List ℚ)} {n i j : ℕ} (hlen : G.length = n)
    (hi : i < n) (hj : j < n) :
    mget (cov2corr G) i j
      = PFloat.clip (PFloat.div (PFloat.val (qget G i j))
          (PFloat.val (sqrtA (qget G i i) * sqrtA (qget G j j))))
          (PFloat.val (-1)) (PFloat.val 1) := by
  subst hlen
  exact mget_mkMatP _ hi hj

theorem cov2corr_entry_val {G : List (List ℚ)} {n i j : ℕ} (hlen : G.length = n)
    (hpd : PosDiagQ G n) (hi : i < n) (hj : j < n) :
    mget (cov2corr G) i j
      = PFloat.val ((qget G i j / (sqrtA (qget G i i) * sqrtA (qget G j j)) ⊔ -1) ⊓ 1) := by
  rw [mget_cov2corr hlen hi hj]
  have hdi : 0 < sqrtA (qget G i i) := sqrtA_pos (hpd i hi)
  have hdj : 0 < sqrtA (qget G j j) := sqrtA_pos (hpd j hj)
  have hden : sqrtA (qget G i i) * sqrtA (qget G j j) ≠ 0 := by positivity
  simp [PFloat.div, PFloat.clip, PFloat.pmax, PFloat.pmin, hden]

theorem cov2corr_diag_one {G : List (List ℚ)} {n i : ℕ} (hlen : G.length = n)
    (hpd : PosDiagQ G n) (hi : i < n) :
    mget (cov2corr G) i i = PFloat.val 1 := by
  rw [cov2corr_entry_val hlen hpd hi hi]
  have hq := hpd i hi
  have hs : 0 < sqrtA (qget G i i) := sqrtA_pos hq
  have hr : 1 ≤ qget G i i / (sqrtA (qget G i i) * sqrtA (qget G i i)) := by
    rw [le_div_iff₀ (by positivity)]
    have h1 := sqrtA_sq_le (qget G i i) (by nlinarith [hq])
    linarith
  congr 1
  rw [max_eq_left (by linarith : (-1:ℚ) ≤ _)]
  exact min_eq_right hr

theorem cov2corr_distHalf_family (G : List (List ℚ)) (n : ℕ) (hlen : G.length = n)
    (hsym : IsSymmQ G n) (hpd : PosDiagQ G n) :
    SymmN (mmap distHalf (cov2corr G)) n ∧ NonnegN (mmap distHalf (cov2corr G)) n ∧
    ZeroDiagN (mmap distHalf (cov2corr G)) n := by
  refine ⟨?_, ?_, ?_⟩
  · intro i j hi hj
    rw [mget_mmap distHalf distHalf_nan, mget_mmap distHalf distHalf_nan,
        cov2corr_entry_val hlen hpd hi hj, cov2corr_entry_val hlen hpd hj hi,
        hsym i j hi hj, mul_comm (sqrtA (qget G i i)) (sqrtA (qget G j j))]
  · intro i j hi hj
    rw [mget_mmap distHalf distHalf_nan, cov2corr_entry_val hlen hpd hi hj,
        distHalf_val]
    exact leB_val_sqrtA _
  · intro i hi
    rw [mget_mmap distHalf distHalf_nan, cov2corr_diag_one hlen hpd hi,
        distHalf_val_one]

theorem ltdi_shape (X : List (List ℚ)) (alpha : ℚ) :
    ShapeN (ltdi_matrix X alpha) (numAssets X) := by
  unfold ltdi_matrix
  exact shape_mkMatQ _ _

theorem qget_ltdi {X : List (List ℚ)} {alpha : ℚ} {n i j : ℕ}
    (hX : numAssets X = n) (hi : i < n) (hj : j < n) :
    ∃ b : ℚ, qget (ltdi_matrix X alpha) i j = clipQ (round8Q b) (1/10^8) 1 ∧
      qget (ltdi_matrix X alpha) j i = clipQ (round8Q b) (1/10^8) 1 := by
  subst hX
  unfold ltdi_matrix
  rw [qget_mkMatQ _ hi hj, qget_mkMatQ _ hj hi, min_comm j i, max_comm j i]
  exact ⟨_, rfl, rfl⟩

theorem tail_family (X : List (List ℚ)) (alpha : ℚ) (lnQ : ℚ → ℚ) (n : ℕ)
    (hX : numAssets X = n) (hln : ∀ q : ℚ, 0 < q → q ≤ 1 → lnQ q ≤ 0) :
    SymmN (mmap (fun p => PFloat.neg (plog lnQ p)) (toPM (ltdi_matrix X alpha))) n ∧
    NonnegN (mmap (fun p => PFloat.neg (plog lnQ p)) (toPM (ltdi_matrix X alpha))) n := by
  have hS : ShapeN (ltdi_matrix X alpha) n := hX ▸ ltdi_shape X alpha
  constructor
  · intro i j hi hj
    rw [mget_mmap _ rfl, mget_mmap _ rfl, mget_toPM hS hi hj, mget_toPM hS hj hi]
    obtain ⟨b, h1, h2⟩ := qget_ltdi hX hi hj
    rw [h1, h2]
  · intro i j hi hj
    rw [mget_mmap _ rfl, mget_toPM hS hi hj]
    obtain ⟨b, h1, -⟩ := qget_ltdi hX hi hj
    rw [h1]
    have hb := clipQ_bounds (round8Q b) (1/10^8) 1 (by norm_num)
    have hqpos : (0:ℚ) < clipQ (round8Q b) (1/10^8) 1 :=
      lt_of_lt_of_le (by norm_num) hb.1
    have hq1 : clipQ (round8Q b) (1/10^8) 1 ≤ 1 := hb.2
    have hplog : plog lnQ (PFloat.val (clipQ (round8Q b) (1/10^8) 1))
        = PFloat.val (lnQ (clipQ (round8Q b) (1/10^8) 1)) := by
      simp only [plog]
      rw [if_pos hqpos]
    rw [hplog]
    simp [PFloat.neg, PFloat.leB]
    linarith [hln _ hqpos hq1]

theorem info_matrices_family {SK : StatKernels} {bi : BinsInfo}
    {X : List (List ℚ)} {normalize : Bool} {n : ℕ} (hX : numAssets X = n)
    {M : PMat} (h : mutual_info_matrix SK bi X normalize = Except.ok M) :
    SymmN M n ∧ NonnegOrNanN M n := by
  unfold mutual_info_matrix at h
  rw [hX] at h
  obtain ⟨M0, hb, hMe⟩ := except_map_ok h
  subst hMe
  constructor
  · intro i j hi hj
    rw [mget_mmap clipRound0 clipRound0_nan, mget_mmap clipRound0 clipRound0_nan,
        buildSym_symm hb hi hj]
  · intro i j hi hj
    rw [mget_mmap clipRound0 clipRound0_nan]
    exact clipRound0_nonneg_or_nan _

theorem vi_matrices_family {SK : StatKernels} {bi : BinsInfo}
    {X : List (List ℚ)} {normalize : Bool} {n : ℕ} (hX : numAssets X = n)
    {M : PMat} (h : var_info_matrix SK bi X normalize = Except.ok M) :
    SymmN M n ∧ NonnegOrNanN M n := by
  unfold var_info_matrix at h
  rw [hX] at h
  obtain ⟨M0, hb, hMe⟩ := except_map_ok h
  subst hMe
  constructor
  · intro i j hi hj
    rw [mget_mmap clipRound0 clipRound0_nan, mget_mmap clipRound0 clipRound0_nan,
        buildSym_symm hb hi hj]
  · intro i j hi hj
    rw [mget_mmap clipRound0 clipRound0_nan]
    exact clipRound0_nonneg_or_nan _

/-- C7 (amended): for every kind in the dispatch table and every successful
run of codep_dist, the distance matrix is symmetric; its entries are
non-negative for every kind except mutual_info, whose entries are
non-negative or nan (nan occurs on degenerate inputs with zero entropies);
the diagonal is exactly 0 for the pearson / spearman / kendall / abs_* kinds,
and for custom_cov provided the supplied covariance has a strictly positive
diagonal (a zero variance makes the cov2corr division produce nan).  The
correlation collaborators are assumed to satisfy their documented contract
(symmetric, unit diagonal); the Gerber covariances symmetric with positive
diagonal; the distance-correlation matrix symmetric; np.log non-positive on
(0, 1]. -/
theorem c7_codep_dist_distance_properties
    (CK : CodepKernels) (SK : StatKernels) (X : List (List ℚ))
    (cc : List (List ℚ)) (bi : BinsInfo) (alpha : ℚ) (n : ℕ)
    (hX : numAssets X = n)
    (hcorr : ∀ method, method ∈ (["pearson", "spearman", "kendall"] : List String) →
      ShapeN (CK.corrOf method) n ∧ IsSymmQ (CK.corrOf method) n ∧
        UnitDiagQ (CK.corrOf method) n)
    (hg1 : CK.gerber1M.length = n ∧ IsSymmQ CK.gerber1M n ∧ PosDiagQ CK.gerber1M n)
    (hg2 : CK.gerber2M.length = n ∧ IsSymmQ CK.gerber2M n ∧ PosDiagQ CK.gerber2M n)
    (hd : ShapeN CK.dcorrM n ∧ IsSymmQ CK.dcorrM n)
    (hcc : cc.length = n ∧ IsSymmQ cc n ∧ PosDiagQ cc n)
    (hln : ∀ q : ℚ, 0 < q → q ≤ 1 → CK.lnQ q ≤ 0)
    (kind : String) (hkind : kind ∈ codepKinds) (c d : PMat)
    (hrun : codep_dist CK SK X cc kind bi alpha = Except.ok (c, d)) :
    SymmN d n ∧
    (kind ≠ "mutual_info" → NonnegN d n) ∧
    NonnegOrNanN d n ∧
    (kind ∈ (["pearson", "spearman", "kendall", "abs_pearson", "abs_spearman",
      "abs_kendall"] : List String) → ZeroDiagN d n) ∧
    (kind = "custom_cov" → ZeroDiagN d n) := by
  simp only [codepKinds, List.mem_cons, List.not_mem_nil, or_false] at hkind
  unfold codep_dist at hrun
  rcases hkind with rfl | rfl | rfl | rfl | rfl | rfl | rfl | rfl | rfl | rfl | rfl | rfl
  · -- pearson
    rw [if_pos (by decide)] at hrun
    simp only [Except.ok.injEq, Prod.mk.injEq] at hrun
    obtain ⟨-, hdq⟩ := hrun
    subst hdq
    obtain ⟨hS, hsym, hud⟩ := hcorr "pearson" (by decide)
    obtain ⟨h1, h2, h3⟩ := distHalf_family _ n hS hsym
    exact ⟨h1, fun _ => h2, nonnegN_imp h2, fun _ => h3 hud,
      fun hcus => absurd hcus (by decide)⟩
  · -- spearman
    rw [if_pos (by decide)] at hrun
    simp only [Except.ok.injEq, Prod.mk.injEq] at hrun
    obtain ⟨-, hdq⟩ := hrun
    subst hdq
    obtain ⟨hS, hsym, hud⟩ := hcorr "spearman" (by decide)
    obtain ⟨h1, h2, h3⟩ := distHalf_family _ n hS hsym
    exact ⟨h1, fun _ => h2, nonnegN_imp h2, fun _ => h3 hud,
      fun hcus => absurd hcus (by decide)⟩
  · -- kendall
    rw [if_pos (by decide)] at hrun
    simp only [Except.ok.injEq, Prod.mk.injEq] at hrun
    obtain ⟨-, hdq⟩ := hrun
    subst hdq
    obtain ⟨hS, hsym, hud⟩ := hcorr "kendall" (by decide)
    obtain ⟨h1, h2, h3⟩ := distHalf_family _ n hS hsym
    exact ⟨h1, fun _ => h2, nonnegN_imp h2, fun _ => h3 hud,
      fun hcus => absurd hcus (by decide)⟩
  · -- gerber1
    rw [if_neg (by decide), if_pos (by decide)] at hrun
    simp only [Except.ok.injEq, Prod.mk.injEq] at hrun
    obtain ⟨-, hdq⟩ := hrun
    subst hdq
    obtain ⟨h1, h2, h3⟩ := cov2corr_distHalf_family _ n hg1.1 hg1.2.1 hg1.2.2
    exact ⟨h1, fun _ => h2, nonnegN_imp h2, fun hmem => absurd hmem (by decide),
      fun hcus => absurd hcus (by decide)⟩
  · -- gerber2
    rw [if_neg (by decide), if_neg (by decide), if_pos (by decide)] at hrun
    simp only [Except.ok.injEq, Prod.mk.injEq] at hrun
    obtain ⟨-, hdq⟩ := hrun
    subst hdq
    obtain ⟨h1, h2, h3⟩ := cov2corr_distHalf_family _ n hg2.1 hg2.2.1 hg2.2.2
    exact ⟨h1, fun _ => h2, nonnegN_imp h2, fun hmem => absurd hmem (by decide),
      fun hcus => absurd hcus (by decide)⟩
  · -- abs_pearson
    rw [if_neg (by decide), if_neg (by decide), if_neg (by decide),
        if_pos (by decide)] at hrun
    simp only [Except.ok.injEq, Prod.mk.injEq] at hrun
    obtain ⟨-, hdq⟩ := hrun
    subst hdq
    have hdrop : ("abs_pearson".drop 4) = "pearson" := rfl
    rw [hdrop]
    obtain ⟨hS, hsym, hud⟩ := hcorr "pearson" (by decide)
    obtain ⟨h1, h2, h3⟩ := distOneAbs_family _ n hS hsym
    exact ⟨h1, fun _ => h2, nonnegN_imp h2, fun _ => h3 hud,
      fun hcus => absurd hcus (by decide)⟩
  · -- abs_spearman
    rw [if_neg (by decide), if_neg (by decide), if_neg (by decide),
        if_pos (by decide)] at hrun
    simp only [Except.ok.injEq, Prod.mk.injEq] at hrun
    obtain ⟨-, hdq⟩ := hrun
    subst hdq
    have hdrop : ("abs_spearman".drop 4) = "spearman" := rfl
    rw [hdrop]
    obtain ⟨hS, hsym, hud⟩ := hcorr "spearman" (by decide)
    obtain ⟨h1, h2, h3⟩ := distOneAbs_family _ n hS hsym
    exact ⟨h1, fun _ => h2, nonnegN_imp h2, fun _ => h3 hud,
      fun hcus => absurd hcus (by decide)⟩
  · -- abs_kendall
    rw [if_neg (by decide), if_neg (by decide), if_neg (by decide),
        if_pos (by decide)] at hrun
    simp only [Except.ok.injEq, Prod.mk.injEq] at hrun
    obtain ⟨-, hdq⟩ := hrun
    subst hdq
    have hdrop : ("abs_kendall".drop 4) = "kendall" := rfl
    rw [hdrop]
    obtain ⟨hS, hsym, hud⟩ := hcorr "kendall" (by decide)
    obtain ⟨h1, h2, h3⟩ := distOneAbs_family _ n hS hsym
    exact ⟨h1, fun _ => h2, nonnegN_imp h2, fun _ => h3 hud,
      fun hcus => absurd hcus (by decide)⟩
  · -- distance
    rw [if_neg (by decide), if_neg (by decide), if_neg (by decide),
        if_neg (by decide), if_pos (by decide)] at hrun
    simp only [Except.ok.injEq, Prod.mk.injEq] at hrun
    obtain ⟨-, hdq⟩ := hrun
    subst hdq
    obtain ⟨h1, h2⟩ := distOne_family _ n hd.1 hd.2
    exact ⟨h1, fun _ => h2, nonnegN_imp h2, fun hmem => absurd hmem (by decide),
      fun hcus => absurd hcus (by decide)⟩
  · -- mutual_info
    rw [if_neg (by decide), if_neg (by decide), if_neg (by decide),
        if_neg (by decide), if_neg (by decide), if_pos (by decide)] at hrun
    cases hmi : mutual_info_matrix SK bi X true with
    | error e => rw [hmi] at hrun; simp [Bind.bind, Except.bind] at hrun
    | ok cM =>
      cases hvi : var_info_matrix SK bi X true with
      | error e =>
        rw [hmi, hvi] at hrun
        simp [Bind.bind, Except.bind] at hrun
      | ok dM =>
        rw [hmi, hvi] at hrun
        simp only [Bind.bind, Except.bind, Except.ok.injEq, Prod.mk.injEq] at hrun
        obtain ⟨-, hdq⟩ := hrun
        subst hdq
        have hf := vi_matrices_family hX hvi
        exact ⟨hf.1, fun hne => absurd rfl hne, hf.2,
          fun hmem => absurd hmem (by decide), fun hcus => absurd hcus (by decide)⟩
  · -- tail
    rw [if_neg (by decide), if_neg (by decide), if_neg (by decide),
        if_neg (by decide), if_neg (by decide), if_neg (by decide),
        if_pos (by decide)] at hrun
    simp only [Except.ok.injEq, Prod.mk.injEq] at hrun
    obtain ⟨-, hdq⟩ := hrun
    subst hdq
    obtain ⟨h1, h2⟩ := tail_family X alpha CK.lnQ n hX hln
    exact ⟨h1, fun _ => h2, nonnegN_imp h2, fun hmem => absurd hmem (by decide),
      fun hcus => absurd hcus (by decide)⟩
  · -- custom_cov
    rw [if_neg (by decide), if_neg (by decide), if_neg (by decide),
        if_neg (by decide), if_neg (by decide), if_neg (by decide),
        if_neg (by decide), if_pos (by decide)] at hrun
    simp only [Except.ok.injEq, Prod.mk.injEq] at hrun
    obtain ⟨-, hdq⟩ := hrun
    subst hdq
    obtain ⟨h1, h2, h3⟩ := cov2corr_distHalf_family _ n hcc.1 hcc.2.1 hcc.2.2
    exact ⟨h1, fun _ => h2, nonnegN_imp h2, fun hmem => absurd hmem (by decide),
      fun _ => h3⟩

theorem triv_one_props :
    ShapeN [[(1:ℚ)]] 1 ∧ IsSymmQ [[(1:ℚ)]] 1 ∧ UnitDiagQ [[(1:ℚ)]] 1 ∧
    PosDiagQ [[(1:ℚ)]] 1 := by
  refine ⟨⟨rfl, ?_⟩, ?_, ?_, ?_⟩
  · intro row hrow
    simp at hrow
    rw [hrow]
    rfl
  · intro i j hi hj
    interval_cases i
    interval_cases j
    rfl
  · intro i hi
    interval_cases i
    rfl
  · intro i hi
    interval_cases i
    have h : qget [[(1:ℚ)]] 0 0 = 1 := rfl
    rw [h]
    norm_num

theorem codep_pearson_eval :
    codep_dist CK0 SK0 [[0], [1]] [[1]] "pearson" (BinsInfo.fixedI 2) (1/20)
      = Except.ok ([[PFloat.val 1]], [[PFloat.val 0]]) := by
  unfold codep_dist
  rw [if_pos (by decide)]
  norm_num [CK0, toPM, mmap, distHalf_val_one]

/-- C7 (witness): the amended statement at a concrete one-asset run of the
pearson kind with contract-satisfying collaborators. -/
theorem c7_codep_dist_distance_properties_w :
    (codep_dist CK0 SK0 [[0], [1]] [[1]] "pearson" (BinsInfo.fixedI 2) (1/20)
      = Except.ok ([[PFloat.val 1]], [[PFloat.val 0]])) ∧
    (SymmN [[PFloat.val 0]] 1 ∧
     ("pearson" ≠ "mutual_info" → NonnegN [[PFloat.val 0]] 1) ∧
     NonnegOrNanN [[PFloat.val 0]] 1 ∧
     ("pearson" ∈ (["pearson", "spearman", "kendall", "abs_pearson",
        "abs_spearman", "abs_kendall"] : List String) → ZeroDiagN [[PFloat.val 0]] 1) ∧
     ("pearson" = "custom_cov" → ZeroDiagN [[PFloat.val 0]] 1)) :=
  ⟨codep_pearson_eval,
   c7_codep_dist_distance_properties CK0 SK0 [[0], [1]] [[1]]
     (BinsInfo.fixedI 2) (1/20) 1 rfl
     (fun _ _ => ⟨triv_one_props.1, triv_one_props.2.1, triv_one_props.2.2.1⟩)
     ⟨rfl, triv_one_props.2.1, triv_one_props.2.2.2⟩
     ⟨rfl, triv_one_props.2.1, triv_one_props.2.2.2⟩
     ⟨triv_one_props.1, triv_one_props.2.1⟩
     ⟨rfl, triv_one_props.2.1, triv_one_props.2.2.2⟩
     (fun _ _ _ => le_refl 0)
     "pearson" (by decide) [[PFloat.val 1]] [[PFloat.val 0]]
     codep_pearson_eval⟩

theorem codep_mutual_info_const_eval :
    codep_dist CK0 SK0 [[0], [0]] [[1]] "mutual_info" (BinsInfo.fixedI 2) (1/20)
      = Except.ok ([[PFloat.nan]], [[PFloat.nan]]) := by
  unfold codep_dist
  rw [if_neg (by decide), if_neg (by decide), if_neg (by decide),
      if_neg (by decide), if_neg (by decide), if_pos (by decide)]
  rw [miMat_eval_const]
  simp only [Bind.bind, Except.bind]
  rw [viMat_eval_const]

theorem codep_custom_zero_eval :
    codep_dist CK0 SK0 [[0], [1]] [[0]] "custom_cov" (BinsInfo.fixedI 2) (1/20)
      = Except.ok ([[PFloat.nan]], [[PFloat.nan]]) := by
  unfold codep_dist
  rw [if_neg (by decide), if_neg (by decide), if_neg (by decide),
      if_neg (by decide), if_neg (by decide), if_neg (by decide),
      if_neg (by decide), if_pos (by decide)]
  norm_num [cov2corr, qget, sqrtA_zero, PFloat.div, PFloat.clip, PFloat.pmax,
    PFloat.pmin, mmap, distHalf_nan, List.range_succ]

/-- C7 (counterexample): the distance matrix of the mutual_info kind on a
degenerate (constant-column) input contains a nan entry, which is not
non-negative in IEEE comparison, refuting unconditional non-negativity; and
for the custom_cov kind a zero-variance covariance makes the diagonal of the
distance matrix nan instead of exactly 0. -/
theorem c7_distance_properties_cex :
    codep_dist CK0 SK0 [[0], [0]] [[1]] "mutual_info" (BinsInfo.fixedI 2) (1/20)
      = Except.ok ([[PFloat.nan]], [[PFloat.nan]]) ∧
    PFloat.leB (PFloat.val 0) (mget [[PFloat.nan]] 0 0) = false ∧
    codep_dist CK0 SK0 [[0], [1]] [[0]] "custom_cov" (BinsInfo.fixedI 2) (1/20)
      = Except.ok ([[PFloat.nan]], [[PFloat.nan]]) ∧
    mget [[PFloat.nan]] 0 0 ≠ PFloat.val 0 := by
  refine ⟨codep_mutual_info_const_eval, rfl, codep_custom_zero_eval, ?_⟩
  intro h
  exact PFloat.noConfusion (show PFloat.nan = PFloat.val 0 from h)
